import Mathlib

/-!
# Verification of the diluvian octree subsystem (src/octrees.py)

Shallow embedding of the sparse, lazily populated octree in
src/octrees.py (class OctreeMatrix and the Node hierarchy), together
with theorems settling the frozen claims about its specification.

Modelling conventions:
* Coordinates are natural numbers (the source stores them as numpy
  uint64; all reachable arithmetic here is small and non-negative, and
  every subtraction performed by the source on reachable states is
  non-underflowing, so Nat faithfully mirrors uint64).
* The node midpoint is computed in the source as (b0 + b1) / 2 on numpy
  arrays, which is float division; every node the source ever subdivides
  has an even side (the root box is leaf_size times a power of two and
  subdivision stops at or before odd sizes), so Nat division by 2 agrees
  with the float value on all subdivided nodes.
* Dense numpy blocks are total functions from local 3-d offsets to
  values, together with an explicit shape where the source's array shape
  is observable (LeafNode.data). The dtype is a modulus M (256 for
  uint8); numpy casts on array assignment and on np.full are modelled
  as reduction mod M.
* Mutation is modelled by state passing: reads return the (possibly
  lazily populated) replacement tree alongside the data; writes return
  the replacement tree. Parent pointers plus in-place replacement in the
  source are exactly this functional splice (spec section 9 design note).
* Recursive population can descend into freshly built children, so the
  interpreters take explicit fuel; a fuelOut error marks exhaustion and
  never occurs at sufficient fuel.
-/

namespace Diluvian

/-- 3-d integer vector, indexed by axis. -/
abbrev V3 := Fin 3 → ℕ

/-- Axis-aligned half-open box: (min inclusive, max exclusive). -/
abbrev Box := V3 × V3

/-- Dense data block: values at local 3-d offsets. -/
abbrev Blk := V3 → ℕ

/-- Componentwise minimum (np.minimum). -/
def vmin (a b : V3) : V3 := fun i => Nat.min (a i) (b i)

/-- Componentwise maximum (np.maximum). -/
def vmax (a b : V3) : V3 := fun i => Nat.max (a i) (b i)

/-- Componentwise subtraction (uint64 subtraction, non-underflowing on
all reachable states). -/
def vsub (a b : V3) : V3 := fun i => a i - b i

/-- Componentwise addition. -/
def vadd (a b : V3) : V3 := fun i => a i + b i

/-- np.any(np.less_equal(a, b)). -/
def anyLe (a b : V3) : Bool := decide (∃ i : Fin 3, a i ≤ b i)

/-- np.any(np.greater(a, b)). -/
def anyGt (a b : V3) : Bool := decide (∃ i : Fin 3, b i < a i)

/-- All components of a are strictly below those of b. -/
def allLt (a b : V3) : Prop := ∀ i : Fin 3, a i < b i

/-- All components of a are at most those of b. -/
def allLe (a b : V3) : Prop := ∀ i : Fin 3, a i ≤ b i

instance (a b : V3) : Decidable (allLt a b) := by unfold allLt; infer_instance

instance (a b : V3) : Decidable (allLe a b) := by unfold allLe; infer_instance

/-- Volume (number of voxels) of a box, zero on degenerate boxes. -/
def boxVol (b : Box) : ℕ := (b.2 0 - b.1 0) * ((b.2 1 - b.1 1) * (b.2 2 - b.1 2))

/-- Octant code: one bit per axis, false selects the low half. -/
abbrev Oct := Bool × Bool × Bool

/-- The bit of octant code o on a given axis. -/
def oi (o : Oct) (a : Fin 3) : Bool :=
  if a = 0 then o.1 else if a = 1 then o.2.1 else o.2.2

/-- The 8 octant codes in the iteration order of the source's nested
i, j, k loops (and of np.where on the stacked mask). -/
def octList : List Oct :=
  [(false, false, false), (false, false, true), (false, true, false), (false, true, true),
   (true, false, false), (true, false, true), (true, true, false), (true, true, true)]

/-- Node midpoint, (bounds0 + bounds1) / 2 (exact on every node the
source subdivides; see module comment). -/
def midpt (b : Box) (a : Fin 3) : ℕ := (b.1 a + b.2 a) / 2

/-- Minimum corner of the given octant of a box (BranchNode.get_child_bounds). -/
def octMin (b : Box) (o : Oct) : V3 := fun a => if oi o a then midpt b a else b.1 a

/-- Maximum corner of the given octant of a box. -/
def octMax (b : Box) (o : Oct) : V3 := fun a => if oi o a then b.2 a else midpt b a

/-- BranchNode.get_children_mask: octant o intersects the query iff on
every axis the query minimum is below the midpoint (low half) or the
query maximum is at least the midpoint (high half). -/
def maskB (b : Box) (key : Box) (o : Oct) : Bool :=
  decide (∀ a : Fin 3, if oi o a then midpt b a ≤ key.2 a else key.1 a < midpt b a)

/-- Node.get_intersection: clip the query to the node's own bounds. -/
def interBox (nb key : Box) : Box := (vmax nb.1 key.1, vmin nb.2 key.2)

/-- Node.get_size: clip_bound - bounds0 when a clip bound is set,
otherwise bounds1 - bounds0. -/
def gsize (b : Box) (clip : Option V3) : V3 :=
  match clip with
  | some c => vsub c b.1
  | none => vsub b.2 b.1

/-- BranchNode.get_child_bounds: the octant box, and its clip bound
(parent clip intersected with the child max; none when that would be
the child max itself). -/
def getChildBounds (b : Box) (clip : Option V3) (o : Oct) : Box × Option V3 :=
  let cb : Box := (octMin b o, octMax b o)
  let cclip : Option V3 :=
    match clip with
    | none => none
    | some c => let cc := vmin cb.2 c
                if cc = cb.2 then none else some cc
  (cb, cclip)

/-- A value passed to a write: a python scalar, or a dense numpy block
with an explicit shape. -/
inductive OVal where
  | scalar (v : ℕ)
  | block (sh : V3) (d : Blk)

/-- The guard of the uniform-collapse fast path on the value:
not hasattr(value, len) or len(value) == 1, i.e. a scalar, or a block
whose first axis has extent 1. -/
def OVal.fastOk : OVal → Bool
  | .scalar _ => true
  | .block sh _ => sh 0 = 1

/-- Whether the value is a python scalar. -/
def OVal.isScalar : OVal → Bool
  | .scalar _ => true
  | .block _ _ => false

/-- Pointwise lookup in a value (scalars broadcast). -/
def OVal.valAt : OVal → V3 → ℕ
  | .scalar v, _ => v
  | .block _ d, p => d p

/-- Slice a value for the write into one child: scalars broadcast
unchanged, blocks are restricted to the sub-window at offset off with
extent ext (value[ind0:ind1] in the source). -/
def OVal.shift : OVal → V3 → V3 → OVal
  | .scalar v, _, _ => .scalar v
  | .block _ d, off, ext => .block ext (fun p => d (vadd p off))

/-- Errors raised by the source: IndexError from key validation,
ValueError for a missing populator, ValueError from numpy shape or
broadcast mismatches, and a fuel marker for the interpreter (never
raised at sufficient fuel). -/
inductive OErr where
  | indexErr
  | noPop
  | valueErr
  | fuelOut
deriving DecidableEq, Repr

/-- The node hierarchy. empty is a None child slot of a BranchNode.
A LeafNode records the shape its dense block was created with (the
numpy array shape) besides the data itself; leaf nodes are always
constructed with clip bound None by the source, but the field is kept
to mirror the Node base class. -/
inductive ONode where
  | empty
  | branch (b : Box) (clip : Option V3) (ch : Oct → ONode)
  | leaf (b : Box) (clip : Option V3) (shape : V3) (data : Blk)
  | uniformBranch (b : Box) (clip : Option V3) (val : OVal)
  | uniformLeaf (b : Box) (clip : Option V3) (val : OVal)

/-- Bounds of a node (empty slots get a degenerate box; the source
never asks a None child for its bounds). -/
def ONode.boundsOf : ONode → Box
  | .empty => (fun _ => 0, fun _ => 0)
  | .branch b _ _ => b
  | .leaf b _ _ _ => b
  | .uniformBranch b _ _ => b
  | .uniformLeaf b _ _ => b

/-- Clip bound of a node. -/
def ONode.clipOf : ONode → Option V3
  | .empty => none
  | .branch _ c _ => c
  | .leaf _ c _ _ => c
  | .uniformBranch _ c _ => c
  | .uniformLeaf _ c _ => c

/-- Node.get_size of a node. -/
def ONode.getSize (n : ONode) : V3 := gsize n.boundsOf n.clipOf

def ONode.isBranchB : ONode → Bool
  | .branch _ _ _ => true
  | _ => false

def ONode.isUniformBranchB : ONode → Bool
  | .uniformBranch _ _ _ => true
  | _ => false

def ONode.isUniformB : ONode → Bool
  | .uniformBranch _ _ _ => true
  | .uniformLeaf _ _ _ => true
  | _ => false

def ONode.isLeafB : ONode → Bool
  | .leaf _ _ _ _ => true
  | _ => false

def ONode.isUniformLeafB : ONode → Bool
  | .uniformLeaf _ _ _ => true
  | _ => false

def ONode.isEmptyB : ONode → Bool
  | .empty => true
  | _ => false

/-- Shape of a leaf node's dense block (degenerate otherwise). -/
def ONode.leafShape : ONode → V3
  | .leaf _ _ sh _ => sh
  | _ => fun _ => 0

/-- Value stored in a uniform node, if any. -/
def ONode.uniformVal : ONode → Option OVal
  | .uniformBranch _ _ v => some v
  | .uniformLeaf _ _ v => some v
  | _ => none

/-- Child of a branch node at an octant code. -/
def ONode.childAt : ONode → Oct → ONode
  | .branch _ _ ch, o => ch o
  | _, _ => .empty

/-- Node at a path of octant codes. -/
def nodeAt : ONode → List Oct → ONode
  | n, [] => n
  | n, o :: l => nodeAt (n.childAt o) l

/-- Update one child slot. -/
def updOct (ch : Oct → ONode) (o : Oct) (n : ONode) : Oct → ONode :=
  fun p => if p = o then n else ch p

/-- The volume container (OctreeMatrix without its root, which is
threaded separately as state). The populator returns a dense block in
coordinates relative to the minimum of the requested bounds, and the
dtype is the modulus M (256 for uint8). -/
structure OctreeMatrix where
  leafSize : V3
  bLo : V3
  bHi : V3
  M : ℕ
  populator : Option (Box → Blk)

/-- Cast a value to the dtype (numpy astype and assignment casts). -/
def vcast (M n : ℕ) : ℕ := n % M

/-- np.full(ext, val, dtype): a dense block of the given extent filled
by broadcasting val, cast to the dtype. Scalar fills always succeed;
an array fill broadcasts along each axis whose length is 1 and fails
with a ValueError otherwise. -/
def broadcastFill (M : ℕ) (ext : V3) : OVal → Except OErr Blk
  | .scalar v => .ok (fun _ => vcast M v)
  | .block sh d =>
      if ∀ a : Fin 3, sh a = ext a ∨ sh a = 1 then
        .ok (fun p => vcast M (d (fun a => if sh a = 1 then 0 else p a)))
      else .error .valueErr

/-- LeafNode.__setitem__: write the value into the sub-window of the
dense block addressed by key, in coordinates local to the leaf minimum
lb0; assignment casts to the dtype. -/
def leafWrite (M : ℕ) (lb0 : V3) (data : Blk) (key : Box) (v : OVal) : Blk :=
  let lo := vsub key.1 lb0
  let hi := vsub key.2 lb0
  fun p => if ∀ a : Fin 3, lo a ≤ p a ∧ p a < hi a
           then vcast M (v.valAt (vsub p lo)) else data p

/-- LeafNode.__getitem__: the sub-block at key, in key-relative
coordinates. -/
def leafRead (lb0 : V3) (data : Blk) (key : Box) : Blk :=
  fun p => data (vadd p (vsub key.1 lb0))

/-- Upper corner of the clip-reduced populator bounds for a child: the
child maximum intersected with the child clip bound when one is set. -/
def popUpper (b : Box) (clip : Option V3) (o : Oct) : V3 :=
  match (getChildBounds b clip o).2 with
  | none => (getChildBounds b clip o).1.2
  | some c => vmin (getChildBounds b clip o).1.2 c

/-- BranchNode.populate_child: build the missing child for octant o of
a branch with bounds b and clip bound clip. Child size at most
leaf_size on some axis (np.any in the source) yields a LeafNode filled
by the populator over the clip-reduced child bounds; otherwise an
unpopulated BranchNode. Fails with a ValueError when no populator is
configured. -/
def populateChild (vol : OctreeMatrix) (b : Box) (clip : Option V3) (o : Oct) :
    Except OErr ONode :=
  match vol.populator with
  | none => .error .noPop
  | some pop =>
      let cb := (getChildBounds b clip o).1
      let cclip := (getChildBounds b clip o).2
      let csize := vsub cb.2 cb.1
      if anyLe csize vol.leafSize then
        let pb2 := popUpper b clip o
        .ok (.leaf cb none (vsub pb2 cb.1)
              (fun p => vcast vol.M (pop (cb.1, pb2) p)))
      else
        .ok (.branch cb cclip (fun _ => .empty))

/-- First loop of BranchNode.__getitem__ and __setitem__: populate every
intersecting child slot that is still None, in octant order. -/
def populateList (vol : OctreeMatrix) (b : Box) (clip : Option V3) (key : Box) :
    List Oct → (Oct → ONode) → Except OErr (Oct → ONode)
  | [], ch => .ok ch
  | o :: rest, ch =>
      if maskB b key o ∧ (ch o).isEmptyB then
        match populateChild vol b clip o with
        | .error e => .error e
        | .ok c => populateList vol b clip key rest (updOct ch o c)
      else populateList vol b clip key rest ch

/-- Whether relative position p (in key coordinates) falls inside the
window of the query covered by sub-box sub. -/
def inWin (key sub : Box) (p : V3) : Prop :=
  ∀ a : Fin 3, sub.1 a - key.1 a ≤ p a ∧ p a < sub.2 a - key.1 a

instance (key sub : Box) (p : V3) : Decidable (inWin key sub p) := by
  unfold inWin; infer_instance

/-- Write the child sub-block (in sub-relative coordinates) over the
query window it covers (the chunk assignment in BranchNode.__getitem__). -/
def overlay (key sub : Box) (cblk acc : Blk) : Blk :=
  fun p => if inWin key sub p then cblk (vsub p (vsub sub.1 key.1)) else acc p

/-- The key guard of the uniform-collapse fast path in
BranchNode.__setitem__: the query must run from the node minimum
exactly to the clip bound (np.array_equal against a None clip bound is
False, so the fast path needs a clip bound to be set). -/
def fastKeyOk (b : Box) (clip : Option V3) (key : Box) : Bool :=
  match clip with
  | some c => decide (key.1 = b.1) && decide (key.2 = c)
  | none => false

/-- The demoted children built by UniformBranchNode.__setitem__: every
octant is seeded with the stored value as a UniformLeafNode (no clip
bound) when its size is at most leaf_size on some axis, and as a
UniformBranchNode with the computed clip bound otherwise; octants whose
minimum lies strictly beyond their clip bound on some axis are omitted
(left None). -/
def demoteChildren (vol : OctreeMatrix) (b : Box) (clip : Option V3) (val : OVal) :
    Oct → ONode := fun o =>
  let cb := (getChildBounds b clip o).1
  let cclip := (getChildBounds b clip o).2
  let skip := match cclip with
              | some cc => anyGt cb.1 cc
              | none => false
  if skip then .empty
  else if anyLe (vsub cb.2 cb.1) vol.leafSize then .uniformLeaf cb none val
  else .uniformBranch cb cclip val

/-- Second loop of BranchNode.__getitem__, parameterized over the
recursive reader g (the read at one fuel level less): read each
intersecting child over its intersection with the query and assemble
the output chunk. -/
def readListF (g : ONode → Box → Except OErr (Blk × ONode)) (b key : Box) :
    List Oct → (Oct → ONode) → Blk → Except OErr (Blk × (Oct → ONode))
  | [], ch, acc => .ok (acc, ch)
  | o :: rest, ch, acc =>
      if maskB b key o then
        let sub := interBox (ch o).boundsOf key
        match g (ch o) sub with
        | .error e => .error e
        | .ok (cblk, c) =>
            readListF g b key rest (updOct ch o c) (overlay key sub cblk acc)
      else readListF g b key rest ch acc

/-- Second loop of BranchNode.__setitem__, parameterized over the
recursive writer s: write the matching slice of the value into each
intersecting child. -/
def writeListF (s : ONode → Box → OVal → Except OErr ONode) (key : Box) (v : OVal)
    (b : Box) : List Oct → (Oct → ONode) → Except OErr (Oct → ONode)
  | [], ch => .ok ch
  | o :: rest, ch =>
      if maskB b key o then
        let sub := interBox (ch o).boundsOf key
        match s (ch o) sub (v.shift (vsub sub.1 key.1) (vsub sub.2 sub.1)) with
        | .error e => .error e
        | .ok c => writeListF s key v b rest (updOct ch o c)
      else writeListF s key v b rest ch

/-- Indexed read of a node (the __getitem__ methods). Returns the block
in key-relative coordinates together with the node after any lazy
population. The np.empty output chunk is modelled as starting from
zeros; for valid queries every position is overwritten by a child
sub-block before being returned. -/
def nodeGet : ℕ → OctreeMatrix → ONode → Box → Except OErr (Blk × ONode)
  | 0, _, _, _ => .error .fuelOut
  | _ + 1, _, .empty, _ => .error .valueErr
  | _ + 1, _, .leaf b c sh data, key => .ok (leafRead b.1 data key, .leaf b c sh data)
  | _ + 1, vol, .uniformBranch b c v, key =>
      (broadcastFill vol.M (vsub key.2 key.1) v).map (fun blk => (blk, .uniformBranch b c v))
  | _ + 1, vol, .uniformLeaf b c v, key =>
      (broadcastFill vol.M (vsub key.2 key.1) v).map (fun blk => (blk, .uniformLeaf b c v))
  | f + 1, vol, .branch b clip ch, key =>
      match populateList vol b clip key octList ch with
      | .error e => .error e
      | .ok ch1 =>
          match readListF (fun c k => nodeGet f vol c k) b key octList ch1 (fun _ => 0) with
          | .error e => .error e
          | .ok (blk, ch2) => .ok (blk, .branch b clip ch2)

/-- Indexed write to a node (the __setitem__ methods). Returns the
replacement node. -/
def nodeSet : ℕ → OctreeMatrix → ONode → Box → OVal → Except OErr ONode
  | 0, _, _, _, _ => .error .fuelOut
  | _ + 1, _, .empty, _, _ => .error .valueErr
  | _ + 1, vol, .leaf b c sh data, key, v =>
      .ok (.leaf b c sh (leafWrite vol.M b.1 data key v))
  | f + 1, vol, .branch b clip ch, key, v =>
      if v.fastOk && fastKeyOk b clip key then
        .ok (.uniformBranch b clip v)
      else
        match populateList vol b clip key octList ch with
        | .error e => .error e
        | .ok ch1 =>
            match writeListF (fun c k w => nodeSet f vol c k w) key v b octList ch1 with
            | .error e => .error e
            | .ok ch2 => .ok (.branch b clip ch2)
  | _ + 1, vol, .uniformLeaf b _ val, key, v =>
      match broadcastFill vol.M (vsub b.2 b.1) val with
      | .error e => .error e
      | .ok data0 => .ok (.leaf b none (vsub b.2 b.1) (leafWrite vol.M b.1 data0 key v))
  | f + 1, vol, .uniformBranch b clip val, key, v =>
      nodeSet f vol (.branch b clip (demoteChildren vol b clip val)) key v

/-- One per-axis selector of an index key: a single integer, or a slice
with explicit start and stop and an optional step. -/
inductive Sel where
  | idx (n : ℕ)
  | slc (start stop : ℕ) (step : Option ℕ)

/-- Interval minimum of a selector (an integer i selects the interval
from i to i + 1). -/
def Sel.lo : Sel → ℕ
  | .idx n => n
  | .slc s _ _ => s

/-- Interval maximum (exclusive) of a selector. -/
def Sel.hi : Sel → ℕ
  | .idx n => n + 1
  | .slc _ e _ => e

/-- Whether the selector is a slice with an explicit step. -/
def Sel.hasStep : Sel → Bool
  | .slc _ _ (some _) => true
  | _ => false

/-- Whether the selector is a slice with an explicit step other
than 1. -/
def Sel.hasNonUnitStep : Sel → Bool
  | .slc _ _ (some st) => decide (st ≠ 1)
  | _ => false

/-- The per-axis interval minima of a key of length 3. -/
def keyLo (key : List Sel) : V3 := fun a => (key.getD a.val (.idx 0)).lo

/-- The per-axis interval maxima of a key of length 3. -/
def keyHi (key : List Sel) : V3 := fun a => (key.getD a.val (.idx 0)).hi

/-- OctreeMatrix.get_checked_np_key: reject keys that do not have
exactly 3 selectors, slices with an explicit step, intervals outside
the declared bounds and empty or inverted intervals; otherwise return
the canonical (min, max) box. -/
def getCheckedNpKey (vol : OctreeMatrix) (key : List Sel) : Except OErr Box :=
  if key.length ≠ 3 then .error .indexErr
  else if key.any Sel.hasStep then .error .indexErr
  else if (∃ a : Fin 3, keyLo key a < vol.bLo a) ∨
          (∃ a : Fin 3, vol.bHi a < keyHi key a) ∨
          (∃ a : Fin 3, keyHi key a ≤ keyLo key a) then .error .indexErr
  else .ok (keyLo key, keyHi key)

/-- OctreeMatrix.__getitem__: validate the key, then delegate to the
root node. The returned tree replaces the root (lazy population). -/
def volGet (fuel : ℕ) (vol : OctreeMatrix) (root : ONode) (key : List Sel) :
    Except OErr (Blk × ONode) :=
  match getCheckedNpKey vol key with
  | .error e => .error e
  | .ok k => nodeGet fuel vol root k

/-- OctreeMatrix.__setitem__: validate the key, then delegate to the
root node; the result is the replacement root. -/
def volSet (fuel : ℕ) (vol : OctreeMatrix) (root : ONode) (key : List Sel) (v : OVal) :
    Except OErr ONode :=
  match getCheckedNpKey vol key with
  | .error e => .error e
  | .ok k => nodeSet fuel vol root k v

/-- Doubling search for the root box factor: the smallest cur * 2^m
with e <= l * cur * 2^m, within the given fuel. -/
def p2g : ℕ → ℕ → ℕ → ℕ → ℕ
  | 0, _, _, cur => cur
  | fu + 1, e, l, cur => if e ≤ l * cur then cur else p2g fu e l (2 * cur)

/-- The per-axis factor np.exp2(np.ceil(np.log2(e / l))).astype(uint64)
computed by OctreeMatrix.__init__, in exact arithmetic: 0 when the real
ratio e / l is at most one half (the float 2^k with k < 0 truncates to
0 under the uint64 cast, and log2 of a zero extent is -inf), and the
least power of two at least e / l otherwise. A zero l divides by zero
in the source (undefined); here p2g then returns its fuel-out value. -/
def upFactor (e l : ℕ) : ℕ :=
  if 2 * e ≤ l then 0 else p2g e e l 1

/-- OctreeMatrix.__init__: the root box runs from bounds.min over
leaf_size times the maximum per-axis factor (the .max() of the factor
array), and the root BranchNode carries clip_bound = bounds.max. No
validation of leaf_size or bounds is performed. -/
def mkVolume (leafSize bLo bHi : V3) (M : ℕ) (pop : Option (Box → Blk)) :
    OctreeMatrix × ONode :=
  let f0 := upFactor (bHi 0 - bLo 0) (leafSize 0)
  let f1 := upFactor (bHi 1 - bLo 1) (leafSize 1)
  let f2 := upFactor (bHi 2 - bLo 2) (leafSize 2)
  let maxf := Nat.max (Nat.max f0 f1) f2
  let rootHi : V3 := fun a => bLo a + leafSize a * maxf
  ({ leafSize := leafSize, bLo := bLo, bHi := bHi, M := M, populator := pop },
   .branch (bLo, rootHi) (some bHi) (fun _ => .empty))

/-- The maximum factor used by mkVolume for the root box. -/
def maxFactor (leafSize bLo bHi : V3) : ℕ :=
  Nat.max (Nat.max (upFactor (bHi 0 - bLo 0) (leafSize 0))
                   (upFactor (bHi 1 - bLo 1) (leafSize 1)))
          (upFactor (bHi 2 - bLo 2) (leafSize 2))

/-- Modelled from the spec: the repository's OctreeVolume.fullness is
not part of src/octrees.py (only later revisions and the tests carry
it). Following the spec text, fullness is the fraction of the
clip-bounded volume currently represented by non-uniform leaf storage
(materialized heterogeneous data); uniform and unpopulated regions
count as not-full. This numerator sums, over the materialized LeafNodes
of the tree, the volume of the intersection of the leaf bounds with the
declared bounds box. -/
def leafClipVol (bLo bHi : V3) : ONode → ℕ
  | .leaf b _ _ _ => boxVol (vmax b.1 bLo, vmin b.2 bHi)
  | .branch _ _ ch =>
      leafClipVol bLo bHi (ch (false, false, false)) +
      leafClipVol bLo bHi (ch (false, false, true)) +
      leafClipVol bLo bHi (ch (false, true, false)) +
      leafClipVol bLo bHi (ch (false, true, true)) +
      leafClipVol bLo bHi (ch (true, false, false)) +
      leafClipVol bLo bHi (ch (true, false, true)) +
      leafClipVol bLo bHi (ch (true, true, false)) +
      leafClipVol bLo bHi (ch (true, true, true))
  | _ => 0

/-- Modelled from the spec: fullness as the fraction, in [0, 1], of the
clip-bounded volume held in non-uniform leaf storage. -/
def fullness (vol : OctreeMatrix) (root : ONode) : ℚ :=
  (leafClipVol vol.bLo vol.bHi root : ℚ) / (boxVol (vol.bLo, vol.bHi) : ℚ)

/-- Strip the error case. -/
def exToOpt {α : Type} : Except OErr α → Option α
  | .ok a => some a
  | .error _ => none

section Scenarios

/-! Concrete volumes and states used by counterexamples and witnesses.
The main scenario is the one from the repository test suite:
leaf_size (5,5,5), bounds ((0,0,0),(11,6,5)), dtype uint8. -/

/-- Main scenario volume, no populator. -/
def scenVol : OctreeMatrix := (mkVolume ![5, 5, 5] ![0, 0, 0] ![11, 6, 5] 256 none).1

/-- Main scenario initial root: a 20-cube BranchNode clipped to (11,6,5). -/
def scenRoot : ONode := (mkVolume ![5, 5, 5] ![0, 0, 0] ![11, 6, 5] 256 none).2

/-- The full-extent key of the main scenario. -/
def scenFullKey : List Sel := [.slc 0 11 none, .slc 0 6 none, .slc 0 5 none]

/-- State after writing the scalar 6 over the full extent. -/
def scenSt1 : Except OErr ONode := volSet 9 scenVol scenRoot scenFullKey (.scalar 6)

/-- State after the further single-voxel write of 5 at (8,5,4). -/
def scenSt2 : Except OErr ONode :=
  scenSt1.bind (fun n => volSet 9 scenVol n [.idx 8, .idx 5, .idx 4] (.scalar 5))

/-- State after the further single-voxel write of 5 at (10,5,4), inside
the remaining uniform octant. -/
def scenSt3 : Except OErr ONode :=
  scenSt2.bind (fun n => volSet 9 scenVol n [.idx 10, .idx 5, .idx 4] (.scalar 5))

/-- A constant populator. -/
def constPop : Box → Blk := fun _ _ => 9

/-- Main scenario volume with a populator attached. -/
def scenVolP : OctreeMatrix :=
  (mkVolume ![5, 5, 5] ![0, 0, 0] ![11, 6, 5] 256 (some constPop)).1

/-- A populator whose values encode the y-range of the request it
received, so that the provenance of populated data is observable. -/
def encPop : Box → Blk := fun b _ => 100 * b.1 1 + b.2 1

/-- Main scenario volume with the encoding populator attached. -/
def scenVolE : OctreeMatrix :=
  (mkVolume ![5, 5, 5] ![0, 0, 0] ![11, 6, 5] 256 (some encPop)).1

/-- Read creating a leaf whose populator bounds are clipped: the query
touches the child at path (low, high-y, low) of the first root octant,
whose bounds run from (0,5,0) to (5,10,5) but whose clip bound is
(5,6,5). -/
def c7Res : Except OErr (Blk × ONode) :=
  volGet 9 scenVolP scenRoot [.idx 0, .idx 5, .idx 0]

/-- The clipped leaf produced by c7Res. -/
def c7LeafNode : Option ONode :=
  (exToOpt c7Res).map (fun r => nodeAt r.2 [(false, false, false), (false, true, false)])

/-- Read whose exclusive maximum (2,5,5) equals the midpoint (5,5,5) of
the first root octant on the y and z axes: the high-y octant of that
node intersects the query per the children mask although the overlap is
empty. -/
def c10Res : Except OErr (Blk × ONode) :=
  volGet 9 scenVolE scenRoot [.slc 0 2 none, .slc 0 5 none, .slc 0 5 none]

/-- The disjoint child materialized by c10Res. -/
def c10LeafNode : Option ONode :=
  (exToOpt c10Res).map (fun r => nodeAt r.2 [(false, false, false), (false, true, false)])

/-- Tiny volume whose full clip-bounded extent has a first axis of
length 1, so that a dense block matching the full extent passes the
len(value) == 1 guard of the collapse fast path. -/
def tinyVol : OctreeMatrix := (mkVolume ![1, 1, 1] ![0, 0, 0] ![1, 1, 1] 256 none).1

/-- Root of the tiny volume. -/
def tinyRoot : ONode := (mkVolume ![1, 1, 1] ![0, 0, 0] ![1, 1, 1] 256 none).2

/-- A dense block value of shape (1,1,1), not a scalar. -/
def tinyBlockVal : OVal := .block ![1, 1, 1] (fun _ => 3)

/-- Writing the full-extent dense block into the tiny volume. -/
def tinySet : Except OErr ONode :=
  volSet 5 tinyVol tinyRoot [.slc 0 1 none, .slc 0 1 none, .slc 0 1 none] tinyBlockVal

/-- A key carrying a slice with an explicit unit step. -/
def unitStepKey : List Sel := [.slc 0 2 (some 1), .idx 0, .idx 0]

/-- A key for the roundtrip witness. -/
def c1Key : List Sel := [.slc 1 3 none, .idx 5, .slc 0 2 none]

/-- The tree after writing the scalar 7 at c1Key into the populated
main scenario. -/
def c1Tree : ONode := (exToOpt (volSet 9 scenVolP scenRoot c1Key (.scalar 7))).getD .empty

/-- The concrete tree after the full-extent write and the (8,5,4)
write. -/
def scenTree2 : ONode := (exToOpt scenSt2).getD .empty

/-- The concrete tree after the further (10,5,4) write. -/
def scenTree3 : ONode := (exToOpt scenSt3).getD .empty

/-- Degenerate volume: every axis has 2 * extent <= leaf_size, so the
root box factor truncates to 0 and the root box is a single point. A
populator is attached so that lazy population succeeds. -/
def degVol : OctreeMatrix := (mkVolume ![5, 5, 5] ![0, 0, 0] ![2, 2, 2] 256 (some constPop)).1

/-- Root of the degenerate volume: a BranchNode over ((0,0,0),(0,0,0))
clipped to (2,2,2). -/
def degRoot : ONode := (mkVolume ![5, 5, 5] ![0, 0, 0] ![2, 2, 2] 256 (some constPop)).2

/-- A single-voxel key at the origin, valid for the declared bounds of
the degenerate volume. -/
def degKey : List Sel := [.idx 0, .idx 0, .idx 0]

/-- Writing the scalar 7 at the origin of the degenerate volume. -/
def degSet : Except OErr ONode := volSet 5 degVol degRoot degKey (.scalar 7)

/-- The tree left by that write. -/
def degTree : ONode := (exToOpt degSet).getD .empty

/-- Reading the origin back from the degenerate volume. -/
def degGet : Except OErr (Blk × ONode) := volGet 5 degVol degTree degKey

/-- The chunk returned by that read (7, the written value, if the read
failed, so that the returned 0 is informative). -/
def degBlk : Blk := ((exToOpt degGet).map Prod.fst).getD (fun _ => 7)

/-- The uniform root left by the full-extent scalar write of 6. -/
def scenUni : ONode := (exToOpt scenSt1).getD .empty

/-- The tree after writing the scalar 5 at (8,5,4) into the uniform
root, keyed directly by the validated box of that voxel. -/
def c3Tree : ONode :=
  (exToOpt (nodeSet 9 scenVol scenUni (![8, 5, 4], ![9, 6, 5]) (.scalar 5))).getD .empty

/-- The clipped leaf produced by c7Res, as a node. -/
def c7Leaf : ONode := c7LeafNode.getD .empty

/-- The disjoint child materialized by c10Res, as a node. -/
def c10Leaf : ONode := c10LeafNode.getD .empty

/-- The block returned by c10Res. -/
def c10Blk : Blk := ((exToOpt c10Res).map Prod.fst).getD (fun _ => 0)

end Scenarios

/-- The conditions under which OctreeMatrix.get_checked_np_key raises
IndexError: wrong arity, a slice carrying an explicit step (the source
rejects every stepped slice, including an explicit step of 1), an
interval reaching outside the declared bounds, or an empty or inverted
interval. -/
def badKey (vol : OctreeMatrix) (key : List Sel) : Prop :=
  key.length ≠ 3 ∨ key.any Sel.hasStep = true ∨
  (∃ a : Fin 3, keyLo key a < vol.bLo a) ∨
  (∃ a : Fin 3, vol.bHi a < keyHi key a) ∨
  (∃ a : Fin 3, keyHi key a ≤ keyLo key a)

instance (vol : OctreeMatrix) (key : List Sel) : Decidable (badKey vol key) := by
  unfold badKey; infer_instance

/-- A public operation on a volume: an indexed read, or an indexed
write with a value. -/
inductive OOp where
  | readOp (key : List Sel)
  | writeOp (key : List Sel) (v : OVal)

/-- The key of an operation. -/
def OOp.key : OOp → List Sel
  | .readOp k => k
  | .writeOp k _ => k

/-- Run a sequence of public operations against a volume, threading the
root replacement returned by each through the next. -/
def runOps (fuel : ℕ) (vol : OctreeMatrix) : ONode → List OOp → Except OErr ONode
  | root, [] => .ok root
  | root, op :: rest =>
      match op with
      | .readOp k =>
          match volGet fuel vol root k with
          | .error e => .error e
          | .ok (_, root1) => runOps fuel vol root1 rest
      | .writeOp k v =>
          match volSet fuel vol root k v with
          | .error e => .error e
          | .ok root1 => runOps fuel vol root1 rest

/-- The box of octant o of node box b. -/
def octBox (b : Box) (o : Oct) : Box := (octMin b o, octMax b o)

/-- The octant of box b containing an absolute point q: the high half
on each axis whose midpoint is at most the coordinate. -/
def octOfPt (b : Box) (q : V3) : Oct :=
  (decide (midpt b 0 ≤ q 0), decide (midpt b 1 ≤ q 1), decide (midpt b 2 ≤ q 2))

/-- The key fits the box: it starts at or after the box minimum and
ends at or before the box maximum. -/
def keyIn (key bb : Box) : Prop :=
  ∀ a : Fin 3, bb.1 a ≤ key.1 a ∧ key.2 a ≤ bb.2 a

instance (key bb : Box) : Decidable (keyIn key bb) := by unfold keyIn; infer_instance

/-- The value is admissible for the key per the set contract: scalars
always, dense blocks exactly when their shape matches the query
extent. -/
def ValShapeOk (key : Box) : OVal → Prop
  | .scalar _ => True
  | .block sh _ => sh = vsub key.2 key.1

/-- Structural well-formedness: every present child of a branch
occupies exactly its octant box. This is the (documented) shape of
every tree the container ever builds: populate_child and demotion
install children exactly over get_child_bounds. -/
def WF : ONode → Prop
  | .branch b _ ch => ∀ o : Oct, ch o = .empty ∨ ((ch o).boundsOf = octBox b o ∧ WF (ch o))
  | _ => True

/-- Membership of an absolute point in a half-open box. -/
def inB (K : Box) (q : V3) : Prop := ∀ a : Fin 3, K.1 a ≤ q a ∧ q a < K.2 a

instance (K : Box) (q : V3) : Decidable (inB K q) := by unfold inB; infer_instance

/-- One box contained in another, pointwise. -/
def boxSub (B K : Box) : Prop := ∀ q, inB B q → inB K q

/-- Effective read ceiling of a node: its clip bound intersected with
its bounds when a clip bound is set. -/
def effMax (b : Box) (clip : Option V3) : V3 :=
  match clip with
  | some cv => vmin b.2 cv
  | none => b.2

/-- The condition under which UniformBranchNode demotion omits a child
slot: the child minimum is strictly beyond the child clip bound on some
axis. -/
def skipCond (b : Box) (clip : Option V3) (o : Oct) : Prop :=
  (match (getChildBounds b clip o).2 with
   | some cc => anyGt (getChildBounds b clip o).1.1 cc
   | none => false) = true

/-- Clip bound coherence of a child with its parent: branch-shaped
children carry exactly the computed child clip bound (leaf-shaped
children never carry one). -/
def childClipOk (b : Box) (clip : Option V3) (o : Oct) : ONode → Prop
  | .branch _ cl _ => cl = (getChildBounds b clip o).2
  | .uniformBranch _ cl _ => cl = (getChildBounds b clip o).2
  | _ => True

/-- The query descends correctly through a node: within bounds,
non-inverted, and below the clip bound when one is set. Every query the
container validates satisfies this at the root, and the intersection
with a masked child preserves it. -/
def keyInClip (key bb : Box) (clip : Option V3) : Prop :=
  ∀ a : Fin 3, bb.1 a ≤ key.1 a ∧ key.1 a ≤ key.2 a ∧ key.2 a ≤ bb.2 a ∧
    (∀ cv, clip = some cv → key.2 a ≤ cv a)

instance (key bb : Box) (clip : Option V3) : Decidable (keyInClip key bb clip) := by
  unfold keyInClip
  infer_instance

/-- A tree holding the constant c everywhere outside the written
region K: leaves carry the cast constant at every in-bounds position
outside K, uniform nodes carry the scalar c unless their whole
effective extent lies inside K, empty slots occur only where demotion
skips them, and children sit on their octant boxes with coherent clip
bounds. -/
def SeededC (M c : ℕ) (K : Box) : ONode → Prop
  | .empty => True
  | .leaf b cl _ data => cl = none ∧
      ∀ q : V3, (∀ a : Fin 3, b.1 a ≤ q a ∧ q a < b.2 a) →
        ¬ inB K q → data (vsub q b.1) = vcast M c
  | .uniformLeaf b clip val => clip = none ∧
      (val = .scalar c ∨ boxSub (b.1, b.2) K)
  | .uniformBranch b clip val => val = .scalar c ∨ boxSub (b.1, effMax b clip) K
  | .branch b clip ch => ∀ o : Oct,
      (ch o = .empty → skipCond b clip o) ∧
      (ch o ≠ .empty → (ch o).boundsOf = octBox b o ∧ childClipOk b clip o (ch o) ∧
        SeededC M c K (ch o))

/-- The pre-write shape of a region uniformly holding the scalar c:
leaves are constant c, uniform nodes carry exactly the scalar c, empty
slots occur only where demotion skips them. The node produced by a
full-extent scalar write, and every intermediate state of a demotion
cascade seeded from it, has this shape. -/
def SeedW (M c : ℕ) : ONode → Prop
  | .empty => True
  | .leaf b cl _ data => cl = none ∧
      ∀ q : V3, (∀ a : Fin 3, b.1 a ≤ q a ∧ q a < b.2 a) →
        data (vsub q b.1) = vcast M c
  | .uniformLeaf _ clip val => clip = none ∧ val = .scalar c
  | .uniformBranch _ _ val => val = .scalar c
  | .branch b clip ch => ∀ o : Oct,
      (ch o = .empty → skipCond b clip o) ∧
      (ch o ≠ .empty → (ch o).boundsOf = octBox b o ∧ childClipOk b clip o (ch o) ∧
        SeedW M c (ch o))

/-- Trees whose unpopulated slots are exactly the demotion-skipped
octants, with coherent child bounds and clip bounds: the shape of every
tree grown from a uniformized region. On such trees no operation ever
reaches populate_child, so the populator is never needed. -/
def WFU : ONode → Prop
  | .empty => True
  | .leaf _ cl _ _ => cl = none
  | .uniformLeaf _ clip _ => clip = none
  | .uniformBranch _ _ _ => True
  | .branch b clip ch => ∀ o : Oct,
      (ch o = .empty → skipCond b clip o) ∧
      (ch o ≠ .empty → (ch o).boundsOf = octBox b o ∧ childClipOk b clip o (ch o) ∧
        WFU (ch o))

/-! ## Helper lemmas -/

theorem p2g_one_le (fu e l : ℕ) : ∀ cur, 1 ≤ cur → 1 ≤ p2g fu e l cur := by
  induction fu with
  | zero => intro cur h; simpa [p2g] using h
  | succ fu ih =>
      intro cur h
      simp only [p2g]
      split
      · exact h
      · exact ih (2 * cur) (by omega)

theorem p2g_reach (fu e l : ℕ) :
    ∀ cur, e ≤ l * (cur * 2 ^ fu) → e ≤ l * p2g fu e l cur := by
  induction fu with
  | zero => intro cur h; simpa [p2g] using h
  | succ fu ih =>
      intro cur h
      simp only [p2g]
      split
      · assumption
      · exact ih (2 * cur) (by rw [pow_succ] at h; nlinarith)

theorem p2g_min (fu e l : ℕ) :
    ∀ cur d, e ≤ l * (cur * 2 ^ d) → p2g fu e l cur ≤ cur * 2 ^ d := by
  induction fu with
  | zero =>
      intro cur d _
      have : 1 ≤ 2 ^ d := Nat.one_le_two_pow
      simp only [p2g]; nlinarith
  | succ fu ih =>
      intro cur d h
      simp only [p2g]
      split
      · have : 1 ≤ 2 ^ d := Nat.one_le_two_pow
        nlinarith
      · rename_i hno
        cases d with
        | zero => simp at h; omega
        | succ d =>
            have h2 : e ≤ l * (2 * cur * 2 ^ d) := by
              rw [pow_succ] at h; nlinarith
            have := ih (2 * cur) d h2
            calc p2g fu e l (2 * cur) ≤ 2 * cur * 2 ^ d := this
              _ = cur * 2 ^ (d + 1) := by ring

theorem upFactor_le_pow (e l k : ℕ) (h : e ≤ l * 2 ^ k) : upFactor e l ≤ 2 ^ k := by
  unfold upFactor
  split
  · exact Nat.zero_le _
  · simpa using p2g_min e e l 1 k (by simpa using h)

theorem upFactor_covers (e l : ℕ) (hl : 1 ≤ l) (h2 : l < 2 * e) :
    e ≤ l * upFactor e l := by
  unfold upFactor
  rw [if_neg (by omega)]
  refine p2g_reach e e l 1 ?_
  have he : e < 2 ^ e := Nat.lt_two_pow e
  have : 2 ^ e ≤ l * (1 * 2 ^ e) := by nlinarith
  omega

theorem upFactor_one_le (e l : ℕ) (h2 : l < 2 * e) : 1 ≤ upFactor e l := by
  unfold upFactor
  rw [if_neg (by omega)]
  exact p2g_one_le e e l 1 le_rfl

theorem octList_complete (o : Oct) : o ∈ octList := by
  obtain ⟨i, j, k⟩ := o
  cases i <;> cases j <;> cases k <;> decide

theorem octList_nodup : octList.Nodup := by decide

theorem oi_octOfPt (b : Box) (q : V3) (a : Fin 3) :
    oi (octOfPt b q) a = decide (midpt b a ≤ q a) := by
  fin_cases a <;> rfl

/-- The octant containing a point of the query is always in the
children mask. -/
theorem mask_octOfPt (b key : Box) (q : V3)
    (hq : ∀ a : Fin 3, key.1 a ≤ q a ∧ q a < key.2 a) :
    maskB b key (octOfPt b q) = true := by
  refine decide_eq_true (fun a => ?_)
  rw [oi_octOfPt]
  have h1 := (hq a).1
  have h2 := (hq a).2
  by_cases hm : midpt b a ≤ q a
  · simp only [hm, decide_eq_true_eq, if_true]
    omega
  · simp [hm]
    omega

/-- A point of the query inside the node box lies in the octant box of
its octant. -/
theorem octOfPt_mem (b : Box) (q : V3) (hin : ∀ a : Fin 3, b.1 a ≤ q a ∧ q a < b.2 a) :
    ∀ a : Fin 3, (octBox b (octOfPt b q)).1 a ≤ q a ∧ q a < (octBox b (octOfPt b q)).2 a := by
  intro a
  simp only [octBox, octMin, octMax]
  rw [oi_octOfPt]
  by_cases hm : midpt b a ≤ q a
  · simp only [hm, decide_eq_true_eq, if_true]
    exact ⟨trivial, (hin a).2⟩
  · simp [hm]
    have := (hin a).1
    have := (hin a).2
    omega

/-- Characterization of the population loop on a duplicate-free octant
list: each slot in the list that is intersecting and absent now holds
the populate_child result, and every other slot is unchanged. -/
theorem populateList_spec (vol : OctreeMatrix) (b : Box) (clip : Option V3) (key : Box) :
    ∀ (l : List Oct) (ch ch' : Oct → ONode), l.Nodup →
      populateList vol b clip key l ch = .ok ch' →
      (∀ o, o ∉ l → ch' o = ch o) ∧
      (∀ o ∈ l,
        (¬ (maskB b key o = true ∧ (ch o).isEmptyB = true) → ch' o = ch o) ∧
        ((maskB b key o = true ∧ (ch o).isEmptyB = true) →
          populateChild vol b clip o = .ok (ch' o))) := by
  intro l
  induction l with
  | nil =>
      intro ch ch' _ h
      cases h
      exact ⟨fun o _ => rfl, fun o ho => absurd ho (List.not_mem_nil o)⟩
  | cons o rest ih =>
      intro ch ch' hnd h
      have hnd' : rest.Nodup := (List.nodup_cons.mp hnd).2
      have honr : o ∉ rest := (List.nodup_cons.mp hnd).1
      unfold populateList at h
      by_cases hc : maskB b key o = true ∧ (ch o).isEmptyB = true
      · rw [if_pos hc] at h
        cases hpc : populateChild vol b clip o with
        | error e => simp only [hpc] at h; cases h
        | ok c =>
            simp only [hpc] at h
            obtain ⟨hout, hin⟩ := ih (updOct ch o c) ch' hnd' h
            have hfix : ch' o = c := by
              have := hout o honr
              rw [this]
              unfold updOct
              rw [if_pos rfl]
            constructor
            · intro o' ho'
              have ho'r : o' ∉ rest := fun hr => ho' (List.mem_cons_of_mem _ hr)
              have ho'o : o' ≠ o := fun he => ho' (he ▸ List.mem_cons_self o rest)
              rw [hout o' ho'r]
              unfold updOct
              rw [if_neg ho'o]
            · intro o' ho'
              rcases List.mem_cons.mp ho' with he | hr
              · subst he
                exact ⟨fun hno => absurd hc hno, fun _ => hfix ▸ hpc⟩
              · have ho'o : o' ≠ o := fun he => honr (he ▸ hr)
                have hupd : updOct ch o c o' = ch o' := by
                  unfold updOct; rw [if_neg ho'o]
                obtain ⟨h1, h2⟩ := hin o' hr
                exact ⟨fun hno => by rw [h1 (by rw [hupd]; exact hno)]; exact hupd,
                       fun hyes => h2 (by rw [hupd]; exact hyes)⟩
      · rw [if_neg hc] at h
        obtain ⟨hout, hin⟩ := ih ch ch' hnd' h
        constructor
        · intro o' ho'
          exact hout o' (fun hr => ho' (List.mem_cons_of_mem _ hr))
        · intro o' ho'
          rcases List.mem_cons.mp ho' with he | hr
          · subst he
            exact ⟨fun _ => hout o' honr, fun hyes => absurd hyes hc⟩
          · exact hin o' hr


/-! ## Claim theorems -/

/-- Population is the identity when no intersecting slot is absent. -/
theorem populateList_id (vol : OctreeMatrix) (b : Box) (clip : Option V3) (key : Box) :
    ∀ (l : List Oct) (ch : Oct → ONode),
      (∀ o ∈ l, ¬ (maskB b key o = true ∧ (ch o).isEmptyB = true)) →
      populateList vol b clip key l ch = .ok ch := by
  intro l
  induction l with
  | nil => intro ch _; rfl
  | cons o rest ih =>
      intro ch hno
      unfold populateList
      rw [if_neg (hno o (List.mem_cons_self o rest))]
      exact ih ch (fun o' ho' => hno o' (List.mem_cons_of_mem _ ho'))

/-- Characterization of the write loop on a duplicate-free octant
list: each intersecting slot holds the recursive write result for its
intersection sub-query and value slice, every other slot is
unchanged. -/
theorem writeListF_spec (s : ONode → Box → OVal → Except OErr ONode) (key : Box)
    (v : OVal) (b : Box) :
    ∀ (l : List Oct) (ch ch' : Oct → ONode), l.Nodup →
      writeListF s key v b l ch = .ok ch' →
      (∀ o, o ∉ l → ch' o = ch o) ∧
      (∀ o ∈ l,
        (maskB b key o = false → ch' o = ch o) ∧
        (maskB b key o = true →
          s (ch o) (interBox (ch o).boundsOf key)
            (v.shift (vsub (interBox (ch o).boundsOf key).1 key.1)
              (vsub (interBox (ch o).boundsOf key).2
                (interBox (ch o).boundsOf key).1)) = .ok (ch' o))) := by
  intro l
  induction l with
  | nil =>
      intro ch ch' _ h
      cases h
      exact ⟨fun o _ => rfl, fun o ho => absurd ho (List.not_mem_nil o)⟩
  | cons o rest ih =>
      intro ch ch' hnd h
      have hnd' : rest.Nodup := (List.nodup_cons.mp hnd).2
      have honr : o ∉ rest := (List.nodup_cons.mp hnd).1
      unfold writeListF at h
      by_cases hm : maskB b key o = true
      · rw [if_pos hm] at h
        cases hs : s (ch o) (interBox (ch o).boundsOf key)
            (v.shift (vsub (interBox (ch o).boundsOf key).1 key.1)
              (vsub (interBox (ch o).boundsOf key).2
                (interBox (ch o).boundsOf key).1)) with
        | error e => simp only [hs] at h; cases h
        | ok c =>
            simp only [hs] at h
            obtain ⟨hout, hin⟩ := ih (updOct ch o c) ch' hnd' h
            have hfix : ch' o = c := by
              rw [hout o honr]; unfold updOct; rw [if_pos rfl]
            constructor
            · intro o' ho'
              have ho'r : o' ∉ rest := fun hr => ho' (List.mem_cons_of_mem _ hr)
              have ho'o : o' ≠ o := fun he => ho' (he ▸ List.mem_cons_self o rest)
              rw [hout o' ho'r]; unfold updOct; rw [if_neg ho'o]
            · intro o' ho'
              rcases List.mem_cons.mp ho' with he | hr
              · subst he
                exact ⟨fun hno => absurd hm (by rw [hno]; exact Bool.false_ne_true),
                       fun _ => hfix ▸ hs⟩
              · have ho'o : o' ≠ o := fun he => honr (he ▸ hr)
                have hupd : updOct ch o c o' = ch o' := by
                  unfold updOct; rw [if_neg ho'o]
                obtain ⟨h1, h2⟩ := hin o' hr
                constructor
                · intro hno
                  rw [h1 hno]
                  exact hupd
                · intro hyes
                  have := h2 hyes
                  rw [hupd] at this
                  exact this
      · rw [if_neg hm] at h
        obtain ⟨hout, hin⟩ := ih ch ch' hnd' h
        constructor
        · intro o' ho'
          exact hout o' (fun hr => ho' (List.mem_cons_of_mem _ hr))
        · intro o' ho'
          rcases List.mem_cons.mp ho' with he | hr
          · subst he
            exact ⟨fun _ => hout o' honr,
                   fun hyes => absurd hyes (by simpa using hm)⟩
          · exact hin o' hr

/-- The write loop succeeds as soon as the recursive write succeeds on
every intersecting slot. -/
theorem writeListF_ok (s : ONode → Box → OVal → Except OErr ONode) (key : Box)
    (v : OVal) (b : Box) :
    ∀ (l : List Oct) (ch : Oct → ONode), l.Nodup →
      (∀ o ∈ l, maskB b key o = true →
        ∃ c', s (ch o) (interBox (ch o).boundsOf key)
          (v.shift (vsub (interBox (ch o).boundsOf key).1 key.1)
            (vsub (interBox (ch o).boundsOf key).2
              (interBox (ch o).boundsOf key).1)) = .ok c') →
      ∃ ch', writeListF s key v b l ch = .ok ch' := by
  intro l
  induction l with
  | nil => intro ch _ _; exact ⟨ch, rfl⟩
  | cons o rest ih =>
      intro ch hnd H
      have hnd' : rest.Nodup := (List.nodup_cons.mp hnd).2
      have honr : o ∉ rest := (List.nodup_cons.mp hnd).1
      unfold writeListF
      by_cases hm : maskB b key o = true
      · rw [if_pos hm]
        obtain ⟨c', hc'⟩ := H o (List.mem_cons_self o rest) hm
        simp only [hc']
        refine ih (updOct ch o c') hnd' (fun o' ho' hm' => ?_)
        have ho'o : o' ≠ o := fun he => honr (he ▸ ho')
        have hupd : updOct ch o c' o' = ch o' := by
          unfold updOct; rw [if_neg ho'o]
        rw [hupd]
        exact H o' (List.mem_cons_of_mem _ ho') hm'
      · rw [if_neg hm]
        exact ih ch hnd' (fun o' ho' hm' => H o' (List.mem_cons_of_mem _ ho') hm')

/-- The read loop: when the recursive read succeeds on every
intersecting slot and returns, on each slot, a sub-block agreeing with
the target values V on the window it covers, the loop succeeds, the
assembled chunk holds V at every covered position, and uncovered
positions keep the accumulator value. -/
theorem readListF_ok (g : ONode → Box → Except OErr (Blk × ONode)) (b key : Box)
    (V : V3 → ℕ) :
    ∀ (l : List Oct) (ch : Oct → ONode) (acc : Blk), l.Nodup →
      (∀ o ∈ l, maskB b key o = true →
        ∃ blko c', g (ch o) (interBox (ch o).boundsOf key) = .ok (blko, c') ∧
          ∀ p, inWin key (interBox (ch o).boundsOf key) p →
            blko (vsub p (vsub (interBox (ch o).boundsOf key).1 key.1)) = V p) →
      ∃ blk ch', readListF g b key l ch acc = .ok (blk, ch') ∧
        ∀ p, ((∃ o ∈ l, maskB b key o = true ∧
                 inWin key (interBox (ch o).boundsOf key) p) → blk p = V p) ∧
             ((∀ o ∈ l, ¬ (maskB b key o = true ∧
                 inWin key (interBox (ch o).boundsOf key) p)) → blk p = acc p) := by
  intro l
  induction l with
  | nil =>
      intro ch acc _ _
      refine ⟨acc, ch, rfl, fun p => ⟨?_, fun _ => rfl⟩⟩
      rintro ⟨o, ho, _⟩
      exact absurd ho (List.not_mem_nil o)
  | cons o rest ih =>
      intro ch acc hnd H
      have hnd' : rest.Nodup := (List.nodup_cons.mp hnd).2
      have honr : o ∉ rest := (List.nodup_cons.mp hnd).1
      unfold readListF
      by_cases hm : maskB b key o = true
      · rw [if_pos hm]
        obtain ⟨blko, c', hg, hval⟩ := H o (List.mem_cons_self o rest) hm
        simp only [hg]
        have hupd : ∀ o' ∈ rest, updOct ch o c' o' = ch o' := by
          intro o' ho'
          have ho'o : o' ≠ o := fun he => honr (he ▸ ho')
          unfold updOct; rw [if_neg ho'o]
        obtain ⟨blk, ch2, hrl, hprops⟩ := ih (updOct ch o c')
          (overlay key (interBox (ch o).boundsOf key) blko acc) hnd'
          (fun o' ho' hm' => by
            rw [hupd o' ho']
            exact H o' (List.mem_cons_of_mem _ ho') hm')
        refine ⟨blk, ch2, hrl, fun p => ⟨?_, ?_⟩⟩
        · rintro ⟨o', ho', hm', hw⟩
          rcases List.mem_cons.mp ho' with he | hr
          · rw [he] at hw
            by_cases hrest : ∃ o'' ∈ rest, maskB b key o'' = true ∧
                inWin key (interBox (updOct ch o c' o'').boundsOf key) p
            · exact (hprops p).1 hrest
            · rw [(hprops p).2 (fun o'' ho'' hc => hrest ⟨o'', ho'', hc⟩)]
              unfold overlay
              rw [if_pos hw]
              exact hval p hw
          · refine (hprops p).1 ⟨o', hr, hm', ?_⟩
            rw [hupd o' hr]
            exact hw
        · intro hnone
          rw [(hprops p).2 (fun o'' ho'' hc => by
            refine hnone o'' (List.mem_cons_of_mem _ ho'') ?_
            rw [hupd o'' ho''] at hc
            exact hc)]
          unfold overlay
          rw [if_neg]
          intro hw
          exact hnone o (List.mem_cons_self o rest) ⟨hm, hw⟩
      · rw [if_neg hm]
        obtain ⟨blk, ch2, hrl, hprops⟩ := ih ch acc hnd'
          (fun o' ho' hm' => H o' (List.mem_cons_of_mem _ ho') hm')
        refine ⟨blk, ch2, hrl, fun p => ⟨?_, ?_⟩⟩
        · rintro ⟨o', ho', hm', hw⟩
          rcases List.mem_cons.mp ho' with he | hr
          · subst he; exact absurd hm' hm
          · exact (hprops p).1 ⟨o', hr, hm', hw⟩
        · intro hnone
          exact (hprops p).2 (fun o'' ho'' => hnone o'' (List.mem_cons_of_mem _ ho''))

/-- Fuel transfer for the read loop, generic in the recursive reader. -/
theorem readListF_mono (g g' : ONode → Box → Except OErr (Blk × ONode))
    (hg : ∀ n k r, g n k = .ok r → g' n k = .ok r) (b key : Box) :
    ∀ (l : List Oct) (ch : Oct → ONode) (acc : Blk) r,
      readListF g b key l ch acc = .ok r → readListF g' b key l ch acc = .ok r := by
  intro l
  induction l with
  | nil => intro ch acc r h; exact h
  | cons o rest ih =>
      intro ch acc r h
      unfold readListF at h ⊢
      by_cases hm : maskB b key o = true
      · rw [if_pos hm] at h ⊢
        cases hgo : g (ch o) (interBox (ch o).boundsOf key) with
        | error e => simp only [hgo] at h; cases h
        | ok ro =>
            simp only [hgo] at h
            simp only [hg _ _ _ hgo]
            exact ih _ _ _ h
      · rw [if_neg hm] at h ⊢
        exact ih _ _ _ h

/-- Reads succeed unchanged with one more unit of fuel. -/
theorem nodeGet_mono (vol : OctreeMatrix) :
    ∀ (f : ℕ) (n : ONode) (key : Box) r,
      nodeGet f vol n key = .ok r → nodeGet (f + 1) vol n key = .ok r := by
  intro f
  induction f with
  | zero => intro n key r h; cases h
  | succ f ih =>
      intro n key r h
      cases n with
      | empty => cases h
      | leaf b c sh data => exact h
      | uniformBranch b c v => exact h
      | uniformLeaf b c v => exact h
      | branch b clip ch =>
          unfold nodeGet at h ⊢
          cases hpl : populateList vol b clip key octList ch with
          | error e => simp only [hpl] at h; cases h
          | ok ch1 =>
              simp only [hpl] at h ⊢
              cases hrl : readListF (fun c k => nodeGet f vol c k) b key octList ch1
                  (fun _ => 0) with
              | error e => simp only [hrl] at h; cases h
              | ok r2 =>
                  simp only [hrl] at h
                  rw [readListF_mono (fun c k => nodeGet f vol c k)
                    (fun c k => nodeGet (f + 1) vol c k)
                    (fun n' k' r' hr' => ih n' k' r' hr') b key octList ch1
                    (fun _ => 0) r2 hrl]
                  exact h

/-- A write returns a non-empty node over the same bounds. -/
theorem nodeSet_shape (vol : OctreeMatrix) :
    ∀ (f : ℕ) (n : ONode) (key : Box) (v : OVal) n',
      nodeSet f vol n key v = .ok n' →
      n'.isEmptyB = false ∧ n'.boundsOf = n.boundsOf := by
  intro f
  induction f with
  | zero => intro n key v n' h; cases h
  | succ f ih =>
      intro n key v n' h
      cases n with
      | empty => cases h
      | leaf b c sh data => cases h; exact ⟨rfl, rfl⟩
      | uniformLeaf b c val =>
          unfold nodeSet at h
          cases hbf : broadcastFill vol.M (vsub b.2 b.1) val with
          | error e => simp only [hbf] at h; cases h
          | ok data0 => simp only [hbf] at h; cases h; exact ⟨rfl, rfl⟩
      | uniformBranch b clip val =>
          unfold nodeSet at h
          have h2 := ih (.branch b clip (demoteChildren vol b clip val)) key v n' h
          exact ⟨h2.1, h2.2⟩
      | branch b clip ch =>
          unfold nodeSet at h
          by_cases hcond : (OVal.fastOk v && fastKeyOk b clip key) = true
          · rw [if_pos hcond] at h; cases h; exact ⟨rfl, rfl⟩
          · rw [if_neg hcond] at h
            cases hpl : populateList vol b clip key octList ch with
            | error e => simp only [hpl] at h; cases h
            | ok ch1 =>
                simp only [hpl] at h
                cases hwl : writeListF (fun c k w => nodeSet f vol c k w) key v b
                    octList ch1 with
                | error e => simp only [hwl] at h; cases h
                | ok ch2 => simp only [hwl] at h; cases h; exact ⟨rfl, rfl⟩

/-- populate_child installs a non-empty well-formed child exactly over
its octant box. -/
theorem populateChild_shape (vol : OctreeMatrix) (b : Box) (clip : Option V3)
    (o : Oct) (c : ONode) (h : populateChild vol b clip o = .ok c) :
    c.isEmptyB = false ∧ c.boundsOf = octBox b o ∧ WF c := by
  unfold populateChild at h
  cases hp : vol.populator with
  | none => rw [hp] at h; cases h
  | some P =>
      simp only [hp] at h
      by_cases hA : anyLe (vsub (getChildBounds b clip o).1.2
          (getChildBounds b clip o).1.1) vol.leafSize = true
      · rw [if_pos hA] at h
        cases h
        exact ⟨rfl, rfl, trivial⟩
      · rw [if_neg hA] at h
        cases h
        exact ⟨rfl, rfl, fun o' => Or.inl rfl⟩

/-- Order facts about the intersection of a node box with a query. -/
theorem inter_facts (nb key : Box) (a : Fin 3) :
    nb.1 a ≤ (interBox nb key).1 a ∧ key.1 a ≤ (interBox nb key).1 a ∧
    (interBox nb key).2 a ≤ nb.2 a ∧ (interBox nb key).2 a ≤ key.2 a ∧
    (∀ x, nb.1 a ≤ x → key.1 a ≤ x → (interBox nb key).1 a ≤ x) ∧
    (∀ x, x ≤ nb.2 a → x ≤ key.2 a → x ≤ (interBox nb key).2 a) := by
  simp only [interBox, vmax, vmin]
  exact ⟨Nat.le_max_left _ _, Nat.le_max_right _ _, Nat.min_le_left _ _,
    Nat.min_le_right _ _, fun x h1 h2 => Nat.max_le.mpr ⟨h1, h2⟩,
    fun x h1 h2 => Nat.le_min.mpr ⟨h1, h2⟩⟩

/-- An octant intersecting a valid clipped query is never one of the
slots demotion skips: the skip test fires only when the octant minimum
passes the clip bound, which a query constrained below the clip bound
forbids on a masked octant. -/
theorem masked_not_skip (b key : Box) (clip : Option V3) (o : Oct)
    (hk : keyInClip key b clip) (hm : maskB b key o = true) :
    ¬ skipCond b clip o := by
  intro hskip
  unfold skipCond at hskip
  cases clip with
  | none => simp [getChildBounds] at hskip
  | some clipc =>
      by_cases heq : vmin (octMax b o) clipc = octMax b o
      · simp [getChildBounds, heq] at hskip
      · have hskipA : anyGt (octMin b o) (vmin (octMax b o) clipc) = true := by
          have h2 : (getChildBounds b (some clipc) o).2 =
              some (vmin (octMax b o) clipc) := by
            show (if vmin (octMax b o) clipc = octMax b o then none
                  else some (vmin (octMax b o) clipc)) = _
            rw [if_neg heq]
          rw [h2] at hskip
          exact hskip
        obtain ⟨a, ha⟩ := of_decide_eq_true hskipA
        have hma := of_decide_eq_true hm a
        have hk1 := (hk a).1
        have hk2 := (hk a).2.1
        have hk3 := (hk a).2.2.1
        have hk4 := (hk a).2.2.2 clipc rfl
        have hmid : midpt b a = (b.1 a + b.2 a) / 2 := rfl
        simp only [vmin, octMin, octMax] at ha
        by_cases hb : oi o a = true
        · simp only [if_pos hb] at ha hma
          have hmin : key.2 a ≤ Nat.min (b.2 a) (clipc a) :=
            Nat.le_min.mpr ⟨hk3, hk4⟩
          omega
        · simp only [if_neg hb] at ha hma
          have hmin : b.1 a ≤ Nat.min (midpt b a) (clipc a) :=
            Nat.le_min.mpr ⟨by omega, by omega⟩
          omega

/-- A clip constraint of a valid query can always be dropped. -/
theorem keyInClip_weaken (key bb : Box) (cl : Option V3)
    (h : keyInClip key bb cl) : keyInClip key bb none :=
  fun a => ⟨(h a).1, (h a).2.1, (h a).2.2.1, fun cv hcv => by cases hcv⟩

/-- The intersection of a valid clipped query with a masked octant is a
valid clipped query for the child installed on that octant box. -/
theorem keyInClip_sub (b key : Box) (clip : Option V3) (o : Oct)
    (hk : keyInClip key b clip) (hm : maskB b key o = true) :
    keyInClip (interBox (octBox b o) key) (octBox b o)
      (getChildBounds b clip o).2 := by
  intro a
  have hma := of_decide_eq_true hm a
  have hk1 := (hk a).1
  have hk2 := (hk a).2.1
  have hk3 := (hk a).2.2.1
  have hmid : midpt b a = (b.1 a + b.2 a) / 2 := rfl
  have hs1 : (interBox (octBox b o) key).1 a =
      Nat.max ((octBox b o).1 a) (key.1 a) := rfl
  have hs2 : (interBox (octBox b o) key).2 a =
      Nat.min ((octBox b o).2 a) (key.2 a) := rfl
  have hlo : (octBox b o).1 a = if oi o a = true then midpt b a else b.1 a := rfl
  have hhi : (octBox b o).2 a = if oi o a = true then b.2 a else midpt b a := rfl
  refine ⟨?_, ?_, ?_, ?_⟩
  · rw [hs1]
    exact Nat.le_max_left _ _
  · rw [hs1, hs2]
    by_cases hb : oi o a = true
    · simp only [if_pos hb] at hlo hhi hma
      rw [hlo, hhi]
      exact Nat.max_le.mpr ⟨Nat.le_min.mpr ⟨by omega, hma⟩,
        Nat.le_min.mpr ⟨by omega, hk2⟩⟩
    · simp only [if_neg hb] at hlo hhi hma
      rw [hlo, hhi]
      exact Nat.max_le.mpr ⟨Nat.le_min.mpr ⟨by omega, by omega⟩,
        Nat.le_min.mpr ⟨by omega, hk2⟩⟩
  · rw [hs2]
    exact Nat.min_le_left _ _
  · intro cv hcv
    cases clip with
    | none =>
        exfalso
        have hnone : (getChildBounds b none o).2 = none := rfl
        rw [hnone] at hcv
        cases hcv
    | some clipc =>
        have hk4 := (hk a).2.2.2 clipc rfl
        by_cases heq : vmin (octMax b o) clipc = octMax b o
        · exfalso
          have h2 : (getChildBounds b (some clipc) o).2 = none := by
            show (if vmin (octMax b o) clipc = octMax b o then none
                  else some (vmin (octMax b o) clipc)) = _
            rw [if_pos heq]
          rw [h2] at hcv
          cases hcv
        · have h2 : (getChildBounds b (some clipc) o).2 =
              some (vmin (octMax b o) clipc) := by
            show (if vmin (octMax b o) clipc = octMax b o then none
                  else some (vmin (octMax b o) clipc)) = _
            rw [if_neg heq]
          rw [h2] at hcv
          have hcv' : cv = vmin (octMax b o) clipc := (Option.some.inj hcv).symm
          rw [hcv']
          have hv : (vmin (octMax b o) clipc) a =
              Nat.min ((octBox b o).2 a) (clipc a) := rfl
          rw [hv, hs2]
          exact Nat.le_min.mpr ⟨Nat.min_le_left _ _,
            le_trans (Nat.min_le_right _ _) hk4⟩

/-- A node flagged empty is the empty node. -/
theorem isEmptyB_eq (n : ONode) (h : n.isEmptyB = true) : n = .empty := by
  cases n with
  | empty => rfl
  | branch b c ch => simp [ONode.isEmptyB] at h
  | leaf b c sh d => simp [ONode.isEmptyB] at h
  | uniformBranch b c v => simp [ONode.isEmptyB] at h
  | uniformLeaf b c v => simp [ONode.isEmptyB] at h

/-- The demoted children of a uniform scalar branch form a tree of the
pre-write uniform shape: empty exactly on skipped slots, uniform nodes
carrying the same scalar on their octant boxes elsewhere. -/
theorem seedW_demote (vol : OctreeMatrix) (M c : ℕ) (b : Box) (clip : Option V3) :
    SeedW M c (.branch b clip (demoteChildren vol b clip (.scalar c))) := by
  intro o
  unfold demoteChildren
  by_cases hskip : (match (getChildBounds b clip o).2 with
      | some cc => anyGt (getChildBounds b clip o).1.1 cc
      | none => false) = true
  · rw [if_pos hskip]
    exact ⟨fun _ => hskip, fun hne => absurd rfl hne⟩
  · rw [if_neg hskip]
    by_cases hA : anyLe (vsub (getChildBounds b clip o).1.2
        (getChildBounds b clip o).1.1) vol.leafSize = true
    · rw [if_pos hA]
      constructor
      · intro he
        cases he
      · intro hne
        refine ⟨rfl, ?_⟩
        constructor
        · trivial
        · exact ⟨rfl, rfl⟩
    · rw [if_neg hA]
      constructor
      · intro he
        cases he
      · intro hne
        exact ⟨rfl, rfl, rfl⟩

/-- The demoted children of any uniform branch form a WFU tree. -/
theorem wfu_demote (vol : OctreeMatrix) (b : Box) (clip : Option V3) (val : OVal) :
    WFU (.branch b clip (demoteChildren vol b clip val)) := by
  intro o
  unfold demoteChildren
  by_cases hskip : (match (getChildBounds b clip o).2 with
      | some cc => anyGt (getChildBounds b clip o).1.1 cc
      | none => false) = true
  · rw [if_pos hskip]
    exact ⟨fun _ => hskip, fun hne => absurd rfl hne⟩
  · rw [if_neg hskip]
    by_cases hA : anyLe (vsub (getChildBounds b clip o).1.2
        (getChildBounds b clip o).1.1) vol.leafSize = true
    · rw [if_pos hA]
      constructor
      · intro he
        cases he
      · intro hne
        refine ⟨rfl, ?_⟩
        constructor
        · trivial
        · exact rfl
    · rw [if_neg hA]
      constructor
      · intro he
        cases he
      · intro hne
        refine ⟨rfl, ?_⟩
        constructor
        · exact rfl
        · trivial

/-- A tree uniformly holding the scalar c is in particular constant c
outside any tracked region. -/
theorem seedW_seededC (M c : ℕ) (K : Box) :
    ∀ n : ONode, SeedW M c n → SeededC M c K n := by
  intro n
  induction n with
  | empty => intro _; trivial
  | leaf b cl sh data =>
      intro h
      exact ⟨h.1, fun q hq _ => h.2 q hq⟩
  | uniformLeaf b clip val =>
      intro h
      exact ⟨h.1, Or.inl h.2⟩
  | uniformBranch b clip val =>
      intro h
      exact Or.inl h
  | branch b clip ch ih =>
      intro h o
      exact ⟨(h o).1, fun hne => ⟨((h o).2 hne).1, ((h o).2 hne).2.1,
        ih o (((h o).2 hne).2.2)⟩⟩

/-- Under the pre-write uniform shape, a child carries either no clip
bound or exactly the computed child clip bound. -/
theorem seedW_clip_cases (M c : ℕ) (b : Box) (clip : Option V3) (o : Oct)
    (n : ONode) (hsw : SeedW M c n) (hcc : childClipOk b clip o n) :
    n.clipOf = none ∨ n.clipOf = (getChildBounds b clip o).2 := by
  cases n with
  | empty => exact Or.inl rfl
  | leaf b' cl sh d => exact Or.inl hsw.1
  | uniformLeaf b' cl v => exact Or.inl hsw.1
  | uniformBranch b' cl v => exact Or.inr hcc
  | branch b' cl ch => exact Or.inr hcc

/-- Same clip dichotomy under the post-write seeded shape. -/
theorem seededC_clip_cases (M c : ℕ) (K : Box) (b : Box) (clip : Option V3)
    (o : Oct) (n : ONode) (hsc : SeededC M c K n) (hcc : childClipOk b clip o n) :
    n.clipOf = none ∨ n.clipOf = (getChildBounds b clip o).2 := by
  cases n with
  | empty => exact Or.inl rfl
  | leaf b' cl sh d => exact Or.inl hsc.1
  | uniformLeaf b' cl v => exact Or.inl hsc.1
  | uniformBranch b' cl v => exact Or.inr hcc
  | branch b' cl ch => exact Or.inr hcc

/-- Same clip dichotomy under the uniformized-region shape. -/
theorem wfu_clip_cases (b : Box) (clip : Option V3) (o : Oct) (n : ONode)
    (hw : WFU n) (hcc : childClipOk b clip o n) :
    n.clipOf = none ∨ n.clipOf = (getChildBounds b clip o).2 := by
  cases n with
  | empty => exact Or.inl rfl
  | leaf b' cl sh d => exact Or.inl hw
  | uniformLeaf b' cl v => exact Or.inl hw
  | uniformBranch b' cl v => exact Or.inr hcc
  | branch b' cl ch => exact Or.inr hcc

/-- Valid descent into a masked child: the intersected query is a valid
clipped query for a child over the octant box whose clip bound is
either absent or the computed child clip bound. -/
theorem keyInClip_child (b key : Box) (clip : Option V3) (o : Oct) (cl : Option V3)
    (hk : keyInClip key b clip) (hm : maskB b key o = true)
    (hcl : cl = none ∨ cl = (getChildBounds b clip o).2) :
    keyInClip (interBox (octBox b o) key) (octBox b o) cl := by
  rcases hcl with h | h
  · rw [h]
    exact keyInClip_weaken _ _ _ (keyInClip_sub b key clip o hk hm)
  · rw [h]
    exact keyInClip_sub b key clip o hk hm

/-- A branch-shaped child with a coherent clip bound carries exactly
the computed child clip bound. -/
theorem branchy_clip_eq (b : Box) (clip : Option V3) (o : Oct) (n : ONode)
    (hcc : childClipOk b clip o n)
    (hbr : n.isBranchB = true ∨ n.isUniformBranchB = true) :
    n.clipOf = (getChildBounds b clip o).2 := by
  cases n with
  | empty =>
      rcases hbr with h | h <;> simp [ONode.isBranchB, ONode.isUniformBranchB] at h
  | leaf b' cl sh d =>
      rcases hbr with h | h <;> simp [ONode.isBranchB, ONode.isUniformBranchB] at h
  | uniformLeaf b' cl v =>
      rcases hbr with h | h <;> simp [ONode.isBranchB, ONode.isUniformBranchB] at h
  | uniformBranch b' cl v => exact hcc
  | branch b' cl ch => exact hcc

/-- A write preserves whether the node is branch-shaped, and on
branch-shaped results also the clip bound. -/
theorem nodeSet_kind_clip (vol : OctreeMatrix) :
    ∀ (f : ℕ) (n : ONode) (key : Box) (v : OVal) (n' : ONode),
      nodeSet f vol n key v = .ok n' →
      ((n'.isBranchB = true ∨ n'.isUniformBranchB = true) ↔
        (n.isBranchB = true ∨ n.isUniformBranchB = true)) ∧
      ((n'.isBranchB = true ∨ n'.isUniformBranchB = true) → n'.clipOf = n.clipOf) := by
  intro f
  induction f with
  | zero => intro n key v n' h; cases h
  | succ f ih =>
      intro n key v n' h
      cases n with
      | empty => cases h
      | leaf b cl sh data =>
          cases h
          exact ⟨Iff.rfl, fun _ => rfl⟩
      | uniformLeaf b cl val =>
          unfold nodeSet at h
          cases hbf : broadcastFill vol.M (vsub b.2 b.1) val with
          | error e => simp only [hbf] at h; cases h
          | ok data0 =>
              simp only [hbf] at h
              cases h
              refine ⟨Iff.rfl, fun h1 => ?_⟩
              rcases h1 with h1 | h1 <;>
                simp [ONode.isBranchB, ONode.isUniformBranchB] at h1
      | uniformBranch b clip val =>
          unfold nodeSet at h
          obtain ⟨hiff, hclip⟩ := ih _ key v n' h
          exact ⟨⟨fun _ => Or.inr rfl, fun _ => hiff.mpr (Or.inl rfl)⟩,
            fun h1 => hclip h1⟩
      | branch b clip ch =>
          unfold nodeSet at h
          by_cases hcond : (OVal.fastOk v && fastKeyOk b clip key) = true
          · rw [if_pos hcond] at h
            cases h
            exact ⟨⟨fun _ => Or.inl rfl, fun _ => Or.inr rfl⟩, fun _ => rfl⟩
          · rw [if_neg hcond] at h
            cases hpl : populateList vol b clip key octList ch with
            | error e => simp only [hpl] at h; cases h
            | ok ch1 =>
                simp only [hpl] at h
                cases hwl : writeListF (fun c k w => nodeSet f vol c k w) key v b
                    octList ch1 with
                | error e => simp only [hwl] at h; cases h
                | ok ch2 =>
                    simp only [hwl] at h
                    cases h
                    exact ⟨⟨fun _ => Or.inl rfl, fun _ => Or.inl rfl⟩, fun _ => rfl⟩

/-- The read loop on children that all read back unchanged with blocks
holding the target values: the children come back unchanged and the
assembled chunk holds the target value at every covered position. -/
theorem readListF_const (g : ONode → Box → Except OErr (Blk × ONode)) (b key : Box)
    (V : V3 → ℕ) :
    ∀ (l : List Oct) (ch : Oct → ONode) (acc : Blk) (blk : Blk) (ch' : Oct → ONode),
      readListF g b key l ch acc = .ok (blk, ch') →
      (∀ o ∈ l, maskB b key o = true →
        ∀ blko c', g (ch o) (interBox (ch o).boundsOf key) = .ok (blko, c') →
          c' = ch o ∧ ∀ p, inWin key (interBox (ch o).boundsOf key) p →
            blko (vsub p (vsub (interBox (ch o).boundsOf key).1 key.1)) = V p) →
      ch' = ch ∧
      ∀ p, ((∃ o ∈ l, maskB b key o = true ∧
               inWin key (interBox (ch o).boundsOf key) p) → blk p = V p) ∧
           ((∀ o ∈ l, ¬ (maskB b key o = true ∧
               inWin key (interBox (ch o).boundsOf key) p)) → blk p = acc p) := by
  intro l
  induction l with
  | nil =>
      intro ch acc blk ch' h H
      cases h
      refine ⟨rfl, fun p => ⟨?_, fun _ => rfl⟩⟩
      rintro ⟨o, ho, _⟩
      exact absurd ho (List.not_mem_nil o)
  | cons o rest ih =>
      intro ch acc blk ch' h H
      unfold readListF at h
      by_cases hm : maskB b key o = true
      · rw [if_pos hm] at h
        cases hg : g (ch o) (interBox (ch o).boundsOf key) with
        | error e => simp only [hg] at h; cases h
        | ok r =>
            obtain ⟨blko, c'⟩ := r
            simp only [hg] at h
            obtain ⟨hco, hval⟩ := H o (List.mem_cons_self o rest) hm blko c' hg
            have hupd : updOct ch o c' = ch := by
              funext o'
              unfold updOct
              by_cases ho' : o' = o
              · rw [if_pos ho', ho', hco]
              · rw [if_neg ho']
            rw [hupd] at h
            obtain ⟨hch, hprops⟩ := ih ch
              (overlay key (interBox (ch o).boundsOf key) blko acc) blk ch' h
              (fun o' ho' => H o' (List.mem_cons_of_mem _ ho'))
            refine ⟨hch, fun p => ⟨?_, ?_⟩⟩
            · rintro ⟨o', ho', hm', hw⟩
              rcases List.mem_cons.mp ho' with he | hr
              · subst he
                by_cases hrest : ∃ o'' ∈ rest, maskB b key o'' = true ∧
                    inWin key (interBox (ch o'').boundsOf key) p
                · exact (hprops p).1 hrest
                · rw [(hprops p).2 (fun o'' ho'' hc => hrest ⟨o'', ho'', hc⟩)]
                  unfold overlay
                  rw [if_pos hw]
                  exact hval p hw
              · exact (hprops p).1 ⟨o', hr, hm', hw⟩
            · intro hnone
              rw [(hprops p).2 (fun o'' ho'' hc =>
                hnone o'' (List.mem_cons_of_mem _ ho'') hc)]
              unfold overlay
              rw [if_neg]
              intro hw
              exact hnone o (List.mem_cons_self o rest) ⟨hm, hw⟩
      · rw [if_neg hm] at h
        obtain ⟨hch, hprops⟩ := ih ch acc blk ch' h
          (fun o' ho' => H o' (List.mem_cons_of_mem _ ho'))
        refine ⟨hch, fun p => ⟨?_, ?_⟩⟩
        · rintro ⟨o', ho', hm', hw⟩
          rcases List.mem_cons.mp ho' with he | hr
          · subst he
            exact absurd hm' hm
          · exact (hprops p).1 ⟨o', hr, hm', hw⟩
        · intro hnone
          exact (hprops p).2 (fun o'' ho'' => hnone o'' (List.mem_cons_of_mem _ ho''))

/-- The read loop returns the children unchanged when every recursive
read returns its node unchanged. -/
theorem readListF_id (g : ONode → Box → Except OErr (Blk × ONode)) (b key : Box) :
    ∀ (l : List Oct) (ch : Oct → ONode) (acc : Blk) (blk : Blk) (ch' : Oct → ONode),
      readListF g b key l ch acc = .ok (blk, ch') →
      (∀ o ∈ l, maskB b key o = true →
        ∀ blko c', g (ch o) (interBox (ch o).boundsOf key) = .ok (blko, c') →
          c' = ch o) →
      ch' = ch := by
  intro l
  induction l with
  | nil =>
      intro ch acc blk ch' h H
      cases h
      rfl
  | cons o rest ih =>
      intro ch acc blk ch' h H
      unfold readListF at h
      by_cases hm : maskB b key o = true
      · rw [if_pos hm] at h
        cases hg : g (ch o) (interBox (ch o).boundsOf key) with
        | error e => simp only [hg] at h; cases h
        | ok r =>
            obtain ⟨blko, c'⟩ := r
            simp only [hg] at h
            have hco := H o (List.mem_cons_self o rest) hm blko c' hg
            have hupd : updOct ch o c' = ch := by
              funext o'
              unfold updOct
              by_cases ho' : o' = o
              · rw [if_pos ho', ho', hco]
              · rw [if_neg ho']
            rw [hupd] at h
            exact ih ch _ blk ch' h (fun o' ho' => H o' (List.mem_cons_of_mem _ ho'))
      · rw [if_neg hm] at h
        exact ih ch acc blk ch' h (fun o' ho' => H o' (List.mem_cons_of_mem _ ho'))

/-- The write loop never raises the missing-populator error when the
recursive write cannot raise it on any intersecting slot. -/
theorem writeListF_noPop (s : ONode → Box → OVal → Except OErr ONode)
    (key : Box) (v : OVal) (b : Box) (P : ONode → Prop)
    (hs : ∀ n, P n →
      s n (interBox n.boundsOf key)
        (v.shift (vsub (interBox n.boundsOf key).1 key.1)
          (vsub (interBox n.boundsOf key).2 (interBox n.boundsOf key).1)) ≠
        .error .noPop) :
    ∀ (l : List Oct) (ch : Oct → ONode), l.Nodup →
      (∀ o ∈ l, maskB b key o = true → P (ch o)) →
      writeListF s key v b l ch ≠ .error .noPop := by
  intro l
  induction l with
  | nil => intro ch _ _ h; cases h
  | cons o rest ih =>
      intro ch hnd hP h
      have hnd' : rest.Nodup := (List.nodup_cons.mp hnd).2
      have honr : o ∉ rest := (List.nodup_cons.mp hnd).1
      unfold writeListF at h
      by_cases hm : maskB b key o = true
      · rw [if_pos hm] at h
        cases hso : s (ch o) (interBox (ch o).boundsOf key)
            (v.shift (vsub (interBox (ch o).boundsOf key).1 key.1)
              (vsub (interBox (ch o).boundsOf key).2
                (interBox (ch o).boundsOf key).1)) with
        | error e =>
            simp only [hso] at h
            cases h
            exact hs (ch o) (hP o (List.mem_cons_self o rest) hm) hso
        | ok c =>
            simp only [hso] at h
            refine ih (updOct ch o c) hnd' (fun o' ho' hm' => ?_) h
            have ho'o : o' ≠ o := fun he => honr (he ▸ ho')
            have hupd : updOct ch o c o' = ch o' := by
              unfold updOct
              rw [if_neg ho'o]
            rw [hupd]
            exact hP o' (List.mem_cons_of_mem _ ho') hm'
      · rw [if_neg hm] at h
        exact ih ch hnd' (fun o' ho' hm' => hP o' (List.mem_cons_of_mem _ ho') hm') h

/-- The read loop never raises the missing-populator error when the
recursive read cannot raise it on any intersecting slot. -/
theorem readListF_noPop (g : ONode → Box → Except OErr (Blk × ONode))
    (b key : Box) (P : ONode → Prop)
    (hg : ∀ n, P n → g n (interBox n.boundsOf key) ≠ .error .noPop) :
    ∀ (l : List Oct) (ch : Oct → ONode) (acc : Blk), l.Nodup →
      (∀ o ∈ l, maskB b key o = true → P (ch o)) →
      readListF g b key l ch acc ≠ .error .noPop := by
  intro l
  induction l with
  | nil => intro ch acc _ _ h; cases h
  | cons o rest ih =>
      intro ch acc hnd hP h
      have hnd' : rest.Nodup := (List.nodup_cons.mp hnd).2
      have honr : o ∉ rest := (List.nodup_cons.mp hnd).1
      unfold readListF at h
      by_cases hm : maskB b key o = true
      · rw [if_pos hm] at h
        cases hgo : g (ch o) (interBox (ch o).boundsOf key) with
        | error e =>
            simp only [hgo] at h
            cases h
            exact hg (ch o) (hP o (List.mem_cons_self o rest) hm) hgo
        | ok r =>
            obtain ⟨blko, c'⟩ := r
            simp only [hgo] at h
            refine ih (updOct ch o c') _ hnd' (fun o' ho' hm' => ?_) h
            have ho'o : o' ≠ o := fun he => honr (he ▸ ho')
            have hupd : updOct ch o c' o' = ch o' := by
              unfold updOct
              rw [if_neg ho'o]
            rw [hupd]
            exact hP o' (List.mem_cons_of_mem _ ho') hm'
      · rw [if_neg hm] at h
        exact ih ch acc hnd' (fun o' ho' hm' => hP o' (List.mem_cons_of_mem _ ho') hm') h

/-- Writing with a valid clipped key contained in the tracked region K
into a tree uniformly holding the scalar c leaves a tree that is still
the constant c everywhere outside K. -/
theorem seeded_set (vol : OctreeMatrix) (c : ℕ) (K : Box) :
    ∀ (f : ℕ) (n : ONode) (key : Box) (v : OVal) (n' : ONode),
      SeedW vol.M c n →
      keyInClip key n.boundsOf n.clipOf →
      (∀ a : Fin 3, K.1 a ≤ key.1 a ∧ key.2 a ≤ K.2 a) →
      nodeSet f vol n key v = .ok n' →
      SeededC vol.M c K n' := by
  intro f
  induction f with
  | zero => intro n key v n' _ _ _ h; cases h
  | succ f ih =>
      intro n key v n' hsw hkey hsub hset
      cases n with
      | empty => cases hset
      | leaf b cl sh data =>
          cases hset
          obtain ⟨hcl, hdata⟩ := hsw
          refine ⟨hcl, fun q hq hqK => ?_⟩
          show (if ∀ a : Fin 3, vsub key.1 b.1 a ≤ vsub q b.1 a ∧
                  vsub q b.1 a < vsub key.2 b.1 a
                then vcast vol.M (v.valAt (vsub (vsub q b.1) (vsub key.1 b.1)))
                else data (vsub q b.1)) = vcast vol.M c
          have hguard : ¬ (∀ a : Fin 3, vsub key.1 b.1 a ≤ vsub q b.1 a ∧
              vsub q b.1 a < vsub key.2 b.1 a) := by
            intro hin
            apply hqK
            intro a
            have h1 := (hin a).1
            have h2 := (hin a).2
            have hb1 : b.1 a ≤ key.1 a := (hkey a).1
            have hq1 := (hq a).1
            have hK1 := (hsub a).1
            have hK2 := (hsub a).2
            simp only [vsub] at h1 h2
            constructor <;> omega
          rw [if_neg hguard]
          exact hdata q hq
      | uniformLeaf b cl val =>
          unfold nodeSet at hset
          obtain ⟨hcl, hval⟩ := hsw
          subst hval
          have hbf : broadcastFill vol.M (vsub b.2 b.1) (OVal.scalar c) =
              .ok (fun _ => vcast vol.M c) := rfl
          simp only [hbf] at hset
          cases hset
          refine ⟨rfl, fun q hq hqK => ?_⟩
          show (if ∀ a : Fin 3, vsub key.1 b.1 a ≤ vsub q b.1 a ∧
                  vsub q b.1 a < vsub key.2 b.1 a
                then vcast vol.M (v.valAt (vsub (vsub q b.1) (vsub key.1 b.1)))
                else vcast vol.M c) = vcast vol.M c
          have hguard : ¬ (∀ a : Fin 3, vsub key.1 b.1 a ≤ vsub q b.1 a ∧
              vsub q b.1 a < vsub key.2 b.1 a) := by
            intro hin
            apply hqK
            intro a
            have h1 := (hin a).1
            have h2 := (hin a).2
            have hb1 : b.1 a ≤ key.1 a := (hkey a).1
            have hq1 := (hq a).1
            have hK1 := (hsub a).1
            have hK2 := (hsub a).2
            simp only [vsub] at h1 h2
            constructor <;> omega
          rw [if_neg hguard]
      | uniformBranch b clip val =>
          unfold nodeSet at hset
          have hval : val = .scalar c := hsw
          subst hval
          exact ih (.branch b clip (demoteChildren vol b clip (.scalar c))) key v n'
            (seedW_demote vol vol.M c b clip) hkey hsub hset
      | branch b clip ch =>
          unfold nodeSet at hset
          have hkeyb : keyInClip key b clip := hkey
          by_cases hcond : (OVal.fastOk v && fastKeyOk b clip key) = true
          · rw [if_pos hcond] at hset
            cases hset
            rw [Bool.and_eq_true] at hcond
            have hfk : fastKeyOk b clip key = true := hcond.2
            cases clip with
            | none => simp [fastKeyOk] at hfk
            | some cv =>
                simp only [fastKeyOk] at hfk
                rw [Bool.and_eq_true] at hfk
                have h1 : key.1 = b.1 := of_decide_eq_true hfk.1
                have h2 : key.2 = cv := of_decide_eq_true hfk.2
                refine Or.inr (fun q hq a => ?_)
                have hqa : b.1 a ≤ q a ∧ q a < Nat.min (b.2 a) (cv a) := hq a
                have hK1 : K.1 a ≤ key.1 a := (hsub a).1
                have hK2 : key.2 a ≤ K.2 a := (hsub a).2
                have h1a : key.1 a = b.1 a := congrFun h1 a
                have h2a : key.2 a = cv a := congrFun h2 a
                have hmin : Nat.min (b.2 a) (cv a) ≤ cv a := Nat.min_le_right _ _
                exact ⟨by omega, by omega⟩
          · rw [if_neg hcond] at hset
            have hnem : ∀ o, maskB b key o = true → ch o ≠ .empty := by
              intro o hm he
              exact masked_not_skip b key clip o hkeyb hm ((hsw o).1 he)
            have hplid : populateList vol b clip key octList ch = .ok ch :=
              populateList_id vol b clip key octList ch
                (fun o _ hc => hnem o hc.1 (isEmptyB_eq _ hc.2))
            simp only [hplid] at hset
            cases hwl : writeListF (fun c' k w => nodeSet f vol c' k w) key v b
                octList ch with
            | error e => simp only [hwl] at hset; cases hset
            | ok ch2 =>
                simp only [hwl] at hset
                cases hset
                obtain ⟨hwlout, hwlin⟩ :=
                  writeListF_spec (fun c' k w => nodeSet f vol c' k w) key v b
                    octList ch ch2 octList_nodup hwl
                intro o
                by_cases hm : maskB b key o = true
                · have hne := hnem o hm
                  obtain ⟨hbo, hcc, hswo⟩ := (hsw o).2 hne
                  have hwo := (hwlin o (octList_complete o)).2 hm
                  have hkic : keyInClip (interBox (ch o).boundsOf key)
                      (ch o).boundsOf (ch o).clipOf := by
                    rw [hbo]
                    exact keyInClip_child b key clip o (ch o).clipOf hkeyb hm
                      (seedW_clip_cases vol.M c b clip o (ch o) hswo hcc)
                  have hsubK : ∀ a : Fin 3,
                      K.1 a ≤ (interBox (ch o).boundsOf key).1 a ∧
                      (interBox (ch o).boundsOf key).2 a ≤ K.2 a := by
                    intro a
                    have hf := inter_facts (ch o).boundsOf key a
                    exact ⟨le_trans (hsub a).1 hf.2.1, le_trans hf.2.2.2.1 (hsub a).2⟩
                  have hsc2 := ih (ch o) _ _ (ch2 o) hswo hkic hsubK hwo
                  have hshape := nodeSet_shape vol f (ch o) _ _ (ch2 o) hwo
                  have hkind := nodeSet_kind_clip vol f (ch o) _ _ (ch2 o) hwo
                  constructor
                  · intro he
                    rw [he] at hshape
                    exact absurd hshape.1 (by decide)
                  · intro hne2
                    refine ⟨hshape.2.trans hbo, ?_, hsc2⟩
                    cases hc2 : ch2 o with
                    | empty => trivial
                    | leaf b2 cl2 sh2 d2 => trivial
                    | uniformLeaf b2 cl2 v2 => trivial
                    | branch b2 cl2 chh =>
                        have hbr2 : (ch2 o).isBranchB = true ∨
                            (ch2 o).isUniformBranchB = true := by
                          rw [hc2]
                          exact Or.inl rfl
                        have hclip2 : (ch2 o).clipOf = (ch o).clipOf := hkind.2 hbr2
                        have hcc2 : (ch o).clipOf = (getChildBounds b clip o).2 :=
                          branchy_clip_eq b clip o (ch o) hcc (hkind.1.mp hbr2)
                        have hfin : (ch2 o).clipOf = (getChildBounds b clip o).2 :=
                          hclip2.trans hcc2
                        rw [hc2] at hfin
                        exact hfin
                    | uniformBranch b2 cl2 v2 =>
                        have hbr2 : (ch2 o).isBranchB = true ∨
                            (ch2 o).isUniformBranchB = true := by
                          rw [hc2]
                          exact Or.inr rfl
                        have hclip2 : (ch2 o).clipOf = (ch o).clipOf := hkind.2 hbr2
                        have hcc2 : (ch o).clipOf = (getChildBounds b clip o).2 :=
                          branchy_clip_eq b clip o (ch o) hcc (hkind.1.mp hbr2)
                        have hfin : (ch2 o).clipOf = (getChildBounds b clip o).2 :=
                          hclip2.trans hcc2
                        rw [hc2] at hfin
                        exact hfin
                · have hmf : maskB b key o = false := by
                    cases hmb : maskB b key o
                    · rfl
                    · exact absurd hmb hm
                  have heq : ch2 o = ch o := (hwlin o (octList_complete o)).1 hmf
                  rw [heq]
                  refine ⟨fun he => (hsw o).1 he, fun hne => ?_⟩
                  obtain ⟨hbo, hcc, hswo⟩ := (hsw o).2 hne
                  exact ⟨hbo, hcc, seedW_seededC vol.M c K (ch o) hswo⟩

/-- A successful read with a valid clipped key disjoint from the
tracked region K, against a tree that is the constant c outside K,
returns the constant c everywhere and leaves the tree unchanged. -/
theorem seeded_get (vol : OctreeMatrix) (c : ℕ) (K : Box) :
    ∀ (f : ℕ) (n : ONode) (key : Box) (blk : Blk) (n2 : ONode),
      SeededC vol.M c K n →
      keyInClip key n.boundsOf n.clipOf →
      (∀ q : V3, (∀ a : Fin 3, key.1 a ≤ q a ∧ q a < key.2 a) → ¬ inB K q) →
      nodeGet f vol n key = .ok (blk, n2) →
      n2 = n ∧ ∀ p : V3, allLt p (vsub key.2 key.1) → blk p = vcast vol.M c := by
  intro f
  induction f with
  | zero => intro n key blk n2 _ _ _ h; cases h
  | succ f ih =>
      intro n key blk n2 hsc hkey hdisj hget
      cases n with
      | empty => cases hget
      | leaf b cl sh data =>
          cases hget
          obtain ⟨hcl, hdat⟩ := hsc
          refine ⟨rfl, fun p hp => ?_⟩
          have hb1 : ∀ a : Fin 3, b.1 a ≤ key.1 a := fun a => (hkey a).1
          have hk12 : ∀ a : Fin 3, key.1 a ≤ key.2 a := fun a => (hkey a).2.1
          have hk2b : ∀ a : Fin 3, key.2 a ≤ b.2 a := fun a => (hkey a).2.2.1
          have key_pt : ∀ a : Fin 3, b.1 a ≤ key.1 a + p a ∧ key.1 a + p a < b.2 a := by
            intro a
            have hpa := hp a
            have h1 := hb1 a
            have h2 := hk12 a
            have h3 := hk2b a
            simp only [vsub] at hpa
            constructor <;> omega
          have key_in : ∀ a : Fin 3, key.1 a ≤ key.1 a + p a ∧
              key.1 a + p a < key.2 a := by
            intro a
            have hpa := hp a
            have h2 := hk12 a
            simp only [vsub] at hpa
            constructor <;> omega
          have hval := hdat (fun a => key.1 a + p a) key_pt
            (hdisj (fun a => key.1 a + p a) key_in)
          show data (vadd p (vsub key.1 b.1)) = vcast vol.M c
          have hidx : vadd p (vsub key.1 b.1) =
              vsub (fun a => key.1 a + p a) b.1 := by
            funext a
            have := hb1 a
            simp only [vadd, vsub]
            omega
          rw [hidx]
          exact hval
      | uniformLeaf b cl val =>
          unfold nodeGet at hget
          obtain ⟨hcl, hdisc⟩ := hsc
          cases hbf : broadcastFill vol.M (vsub key.2 key.1) val with
          | error e => rw [hbf] at hget; cases hget
          | ok bl =>
              rw [hbf] at hget
              cases hget
              refine ⟨rfl, fun p hp => ?_⟩
              rcases hdisc with hvc | hbox
              · subst hvc
                have h2 : (Except.ok (fun _ : V3 => vcast vol.M c) :
                    Except OErr Blk) = Except.ok blk := hbf
                cases h2
                rfl
              · exfalso
                have key_in : ∀ a : Fin 3, key.1 a ≤ key.1 a + p a ∧
                    key.1 a + p a < key.2 a := by
                  intro a
                  have hpa := hp a
                  have h2 := (hkey a).2.1
                  simp only [vsub] at hpa
                  constructor <;> omega
                have key_pt : ∀ a : Fin 3, b.1 a ≤ key.1 a + p a ∧
                    key.1 a + p a < b.2 a := by
                  intro a
                  have h1 : b.1 a ≤ key.1 a := (hkey a).1
                  have h3 : key.2 a ≤ b.2 a := (hkey a).2.2.1
                  have h4 := (key_in a).1
                  have h5 := (key_in a).2
                  constructor <;> omega
                exact hdisj (fun a => key.1 a + p a) key_in
                  (hbox (fun a => key.1 a + p a) key_pt)
      | uniformBranch b clip val =>
          unfold nodeGet at hget
          cases hbf : broadcastFill vol.M (vsub key.2 key.1) val with
          | error e => rw [hbf] at hget; cases hget
          | ok bl =>
              rw [hbf] at hget
              cases hget
              refine ⟨rfl, fun p hp => ?_⟩
              rcases hsc with hvc | hbox
              · subst hvc
                have h2 : (Except.ok (fun _ : V3 => vcast vol.M c) :
                    Except OErr Blk) = Except.ok blk := hbf
                cases h2
                rfl
              · exfalso
                have key_in : ∀ a : Fin 3, key.1 a ≤ key.1 a + p a ∧
                    key.1 a + p a < key.2 a := by
                  intro a
                  have hpa := hp a
                  have h2 := (hkey a).2.1
                  simp only [vsub] at hpa
                  constructor <;> omega
                have key_pt : ∀ a : Fin 3, b.1 a ≤ key.1 a + p a ∧
                    key.1 a + p a < effMax b clip a := by
                  intro a
                  have h1 : b.1 a ≤ key.1 a := (hkey a).1
                  have h3 : key.2 a ≤ b.2 a := (hkey a).2.2.1
                  have h4 := (key_in a).1
                  have h5 := (key_in a).2
                  cases clip with
                  | none =>
                      show b.1 a ≤ key.1 a + p a ∧ key.1 a + p a < b.2 a
                      constructor <;> omega
                  | some cv =>
                      have h6 := (hkey a).2.2.2 cv rfl
                      show b.1 a ≤ key.1 a + p a ∧
                        key.1 a + p a < Nat.min (b.2 a) (cv a)
                      refine ⟨by omega, Nat.lt_min.mpr ⟨by omega, by omega⟩⟩
                exact hdisj (fun a => key.1 a + p a) key_in
                  (hbox (fun a => key.1 a + p a) key_pt)
      | branch b clip ch =>
          unfold nodeGet at hget
          have hkeyb : keyInClip key b clip := hkey
          have hnem : ∀ o, maskB b key o = true → ch o ≠ .empty := by
            intro o hm he
            exact masked_not_skip b key clip o hkeyb hm ((hsc o).1 he)
          have hplid : populateList vol b clip key octList ch = .ok ch :=
            populateList_id vol b clip key octList ch
              (fun o _ hc => hnem o hc.1 (isEmptyB_eq _ hc.2))
          simp only [hplid] at hget
          cases hrl : readListF (fun c' k => nodeGet f vol c' k) b key octList ch
              (fun _ => 0) with
          | error e => simp only [hrl] at hget; cases hget
          | ok r =>
              obtain ⟨blk1, ch2⟩ := r
              simp only [hrl] at hget
              cases hget
              have H : ∀ o ∈ octList, maskB b key o = true →
                  ∀ blko c', nodeGet f vol (ch o)
                      (interBox (ch o).boundsOf key) = .ok (blko, c') →
                    c' = ch o ∧ ∀ p, inWin key (interBox (ch o).boundsOf key) p →
                      blko (vsub p (vsub (interBox (ch o).boundsOf key).1 key.1)) =
                        vcast vol.M c := by
                intro o _ hm blko c' hg
                have hne := hnem o hm
                obtain ⟨hbo, hcc, hsco⟩ := (hsc o).2 hne
                have hkic : keyInClip (interBox (ch o).boundsOf key)
                    (ch o).boundsOf (ch o).clipOf := by
                  rw [hbo]
                  exact keyInClip_child b key clip o (ch o).clipOf hkeyb hm
                    (seededC_clip_cases vol.M c K b clip o (ch o) hsco hcc)
                have hdisj' : ∀ q : V3, (∀ a : Fin 3,
                    (interBox (ch o).boundsOf key).1 a ≤ q a ∧
                    q a < (interBox (ch o).boundsOf key).2 a) → ¬ inB K q := by
                  intro q hq
                  apply hdisj
                  intro a
                  have hf := inter_facts (ch o).boundsOf key a
                  have h1 := (hq a).1
                  have h2 := (hq a).2
                  exact ⟨le_trans hf.2.1 h1, lt_of_lt_of_le h2 hf.2.2.2.1⟩
                obtain ⟨hc', hval⟩ := ih (ch o) _ blko c' hsco hkic hdisj' hg
                refine ⟨hc', fun p hw => ?_⟩
                have hsub1 : ∀ a : Fin 3,
                    key.1 a ≤ (interBox (ch o).boundsOf key).1 a :=
                  fun a => (inter_facts (ch o).boundsOf key a).2.1
                have hq : allLt (vsub p (vsub (interBox (ch o).boundsOf key).1 key.1))
                    (vsub (interBox (ch o).boundsOf key).2
                      (interBox (ch o).boundsOf key).1) := by
                  intro a
                  have hw1 := (hw a).1
                  have hw2 := (hw a).2
                  have := hsub1 a
                  simp only [vsub] at hw1 hw2 ⊢
                  omega
                exact hval _ hq
              obtain ⟨hch, hprops⟩ :=
                readListF_const (fun c' k => nodeGet f vol c' k) b key
                  (fun _ => vcast vol.M c) octList ch (fun _ => 0) _ _ hrl H
              constructor
              · rw [hch]
              · intro p hp
                have hqkey : ∀ a : Fin 3, key.1 a ≤ key.1 a + p a ∧
                    key.1 a + p a < key.2 a := by
                  intro a
                  have hpa := hp a
                  have h2 := (hkeyb a).2.1
                  simp only [vsub] at hpa
                  constructor <;> omega
                have hqbox : ∀ a : Fin 3, b.1 a ≤ key.1 a + p a ∧
                    key.1 a + p a < b.2 a := by
                  intro a
                  have h1 := (hqkey a).1
                  have h2 := (hqkey a).2
                  have h3 := (hkeyb a).1
                  have h4 := (hkeyb a).2.2.1
                  constructor <;> omega
                have hmq := mask_octOfPt b key (fun a => key.1 a + p a) hqkey
                have hmem := octOfPt_mem b (fun a => key.1 a + p a) hqbox
                have hne := hnem _ hmq
                obtain ⟨hbo, _, _⟩ := (hsc (octOfPt b (fun a => key.1 a + p a))).2 hne
                refine (hprops p).1 ⟨octOfPt b (fun a => key.1 a + p a),
                  octList_complete _, hmq, ?_⟩
                rw [hbo]
                intro a
                have hf := inter_facts (octBox b (octOfPt b (fun a => key.1 a + p a)))
                  key a
                have hmem1 : (octBox b (octOfPt b (fun a => key.1 a + p a))).1 a ≤
                    key.1 a + p a := (hmem a).1
                have hmem2 : key.1 a + p a <
                    (octBox b (octOfPt b (fun a => key.1 a + p a))).2 a := (hmem a).2
                have hqk1 := (hqkey a).1
                have hqk2 := (hqkey a).2
                have hs1q := hf.2.2.2.2.1 (key.1 a + p a) hmem1 hqk1
                have hqs2 := hf.2.2.2.2.2 (key.1 a + p a + 1) (by omega) (by omega)
                have hk1s1 := hf.2.1
                constructor <;> omega

/-- A key accepted by validation is inside the declared bounds and
non-degenerate on every axis. -/
theorem getCheckedNpKey_ok (vol : OctreeMatrix) (key : List Sel) (kb : Box)
    (h : getCheckedNpKey vol key = .ok kb) :
    ∀ a : Fin 3, vol.bLo a ≤ kb.1 a ∧ kb.1 a < kb.2 a ∧ kb.2 a ≤ vol.bHi a := by
  unfold getCheckedNpKey at h
  by_cases h1 : key.length ≠ 3
  · rw [if_pos h1] at h
    cases h
  · rw [if_neg h1] at h
    by_cases h2 : key.any Sel.hasStep = true
    · rw [if_pos h2] at h
      cases h
    · rw [if_neg h2] at h
      by_cases h3 : (∃ a : Fin 3, keyLo key a < vol.bLo a) ∨
          (∃ a : Fin 3, vol.bHi a < keyHi key a) ∨
          (∃ a : Fin 3, keyHi key a ≤ keyLo key a)
      · rw [if_pos h3] at h
        cases h
      · rw [if_neg h3] at h
        cases h
        push_neg at h3
        intro a
        exact ⟨h3.1 a, h3.2.2 a, h3.2.1 a⟩

/-- Key validation only ever raises the indexing error. -/
theorem getCheckedNpKey_err (vol : OctreeMatrix) (key : List Sel) (e : OErr)
    (h : getCheckedNpKey vol key = .error e) : e = .indexErr := by
  unfold getCheckedNpKey at h
  by_cases h1 : key.length ≠ 3
  · rw [if_pos h1] at h
    cases h
    rfl
  · rw [if_neg h1] at h
    by_cases h2 : key.any Sel.hasStep = true
    · rw [if_pos h2] at h
      cases h
      rfl
    · rw [if_neg h2] at h
      by_cases h3 : (∃ a : Fin 3, keyLo key a < vol.bLo a) ∨
          (∃ a : Fin 3, vol.bHi a < keyHi key a) ∨
          (∃ a : Fin 3, keyHi key a ≤ keyLo key a)
      · rw [if_pos h3] at h
        cases h
        rfl
      · rw [if_neg h3] at h
        cases h

/-- On a uniformized-region tree, a read with a valid clipped key never
raises the missing-populator error, and a successful read returns the
tree unchanged. -/
theorem wfu_get (vol : OctreeMatrix) :
    ∀ (f : ℕ) (n : ONode) (key : Box),
      WFU n → keyInClip key n.boundsOf n.clipOf →
      nodeGet f vol n key ≠ .error .noPop ∧
      (∀ blk n2, nodeGet f vol n key = .ok (blk, n2) → n2 = n) := by
  intro f
  induction f with
  | zero =>
      intro n key _ _
      constructor
      · intro h
        cases h
      · intro blk n2 h
        cases h
  | succ f ih =>
      intro n key hwfu hkey
      cases n with
      | empty =>
          constructor
          · intro h
            cases h
          · intro blk n2 h
            cases h
      | leaf b cl sh data =>
          constructor
          · intro h
            cases h
          · intro blk n2 h
            cases h
            rfl
      | uniformLeaf b cl val =>
          constructor
          · intro h
            unfold nodeGet at h
            cases hbf : broadcastFill vol.M (vsub key.2 key.1) val with
            | error e =>
                rw [hbf] at h
                cases h
                cases val with
                | scalar w => cases hbf
                | block sh d =>
                    simp only [broadcastFill] at hbf
                    by_cases hc : ∀ a : Fin 3, sh a = vsub key.2 key.1 a ∨ sh a = 1
                    · rw [if_pos hc] at hbf
                      cases hbf
                    · rw [if_neg hc] at hbf
                      cases hbf
            | ok bl =>
                rw [hbf] at h
                cases h
          · intro blk n2 h
            unfold nodeGet at h
            cases hbf : broadcastFill vol.M (vsub key.2 key.1) val with
            | error e => rw [hbf] at h; cases h
            | ok bl => rw [hbf] at h; cases h; rfl
      | uniformBranch b clip val =>
          constructor
          · intro h
            unfold nodeGet at h
            cases hbf : broadcastFill vol.M (vsub key.2 key.1) val with
            | error e =>
                rw [hbf] at h
                cases h
                cases val with
                | scalar w => cases hbf
                | block sh d =>
                    simp only [broadcastFill] at hbf
                    by_cases hc : ∀ a : Fin 3, sh a = vsub key.2 key.1 a ∨ sh a = 1
                    · rw [if_pos hc] at hbf
                      cases hbf
                    · rw [if_neg hc] at hbf
                      cases hbf
            | ok bl =>
                rw [hbf] at h
                cases h
          · intro blk n2 h
            unfold nodeGet at h
            cases hbf : broadcastFill vol.M (vsub key.2 key.1) val with
            | error e => rw [hbf] at h; cases h
            | ok bl => rw [hbf] at h; cases h; rfl
      | branch b clip ch =>
          have hkeyb : keyInClip key b clip := hkey
          have hnem : ∀ o, maskB b key o = true → ch o ≠ .empty := by
            intro o hm he
            exact masked_not_skip b key clip o hkeyb hm ((hwfu o).1 he)
          have hplid : populateList vol b clip key octList ch = .ok ch :=
            populateList_id vol b clip key octList ch
              (fun o _ hc => hnem o hc.1 (isEmptyB_eq _ hc.2))
          have hP : ∀ o ∈ octList, maskB b key o = true →
              WFU (ch o) ∧ keyInClip (interBox (ch o).boundsOf key)
                (ch o).boundsOf (ch o).clipOf := by
            intro o _ hm
            obtain ⟨hbo, hcc, hwo⟩ := (hwfu o).2 (hnem o hm)
            refine ⟨hwo, ?_⟩
            rw [hbo]
            exact keyInClip_child b key clip o (ch o).clipOf hkeyb hm
              (wfu_clip_cases b clip o (ch o) hwo hcc)
          constructor
          · intro h
            unfold nodeGet at h
            simp only [hplid] at h
            cases hrl : readListF (fun c' k => nodeGet f vol c' k) b key octList ch
                (fun _ => 0) with
            | error e =>
                simp only [hrl] at h
                cases h
                exact readListF_noPop (fun c' k => nodeGet f vol c' k) b key
                  (fun m => WFU m ∧ keyInClip (interBox m.boundsOf key)
                    m.boundsOf m.clipOf)
                  (fun m hm => (ih m (interBox m.boundsOf key) hm.1 hm.2).1)
                  octList ch (fun _ => 0) octList_nodup hP hrl
            | ok r =>
                obtain ⟨blk1, ch2⟩ := r
                simp only [hrl] at h
                cases h
          · intro blk n2 h
            unfold nodeGet at h
            simp only [hplid] at h
            cases hrl : readListF (fun c' k => nodeGet f vol c' k) b key octList ch
                (fun _ => 0) with
            | error e => simp only [hrl] at h; cases h
            | ok r =>
                obtain ⟨blk1, ch2⟩ := r
                simp only [hrl] at h
                cases h
                have hch : ch2 = ch :=
                  readListF_id (fun c' k => nodeGet f vol c' k) b key octList ch
                    (fun _ => 0) _ _ hrl
                    (fun o ho hm blko c' hg =>
                      (ih (ch o) (interBox (ch o).boundsOf key)
                        (hP o ho hm).1 (hP o ho hm).2).2 blko c' hg)
                rw [hch]

/-- On a uniformized-region tree, a write with a valid clipped key never
raises the missing-populator error, and the replacement tree is again a
uniformized-region tree. -/
theorem wfu_set (vol : OctreeMatrix) :
    ∀ (f : ℕ) (n : ONode) (key : Box) (v : OVal),
      WFU n → keyInClip key n.boundsOf n.clipOf →
      nodeSet f vol n key v ≠ .error .noPop ∧
      (∀ n', nodeSet f vol n key v = .ok n' → WFU n') := by
  intro f
  induction f with
  | zero =>
      intro n key v _ _
      constructor
      · intro h
        cases h
      · intro n' h
        cases h
  | succ f ih =>
      intro n key v hwfu hkey
      cases n with
      | empty =>
          constructor
          · intro h
            cases h
          · intro n' h
            cases h
      | leaf b cl sh data =>
          constructor
          · intro h
            cases h
          · intro n' h
            cases h
            exact hwfu
      | uniformLeaf b cl val =>
          constructor
          · intro h
            unfold nodeSet at h
            cases hbf : broadcastFill vol.M (vsub b.2 b.1) val with
            | error e =>
                simp only [hbf] at h
                cases h
                cases val with
                | scalar w => cases hbf
                | block sh d =>
                    simp only [broadcastFill] at hbf
                    by_cases hc : ∀ a : Fin 3, sh a = vsub b.2 b.1 a ∨ sh a = 1
                    · rw [if_pos hc] at hbf
                      cases hbf
                    · rw [if_neg hc] at hbf
                      cases hbf
            | ok data0 =>
                simp only [hbf] at h
                cases h
          · intro n' h
            unfold nodeSet at h
            cases hbf : broadcastFill vol.M (vsub b.2 b.1) val with
            | error e => simp only [hbf] at h; cases h
            | ok data0 =>
                simp only [hbf] at h
                cases h
                exact rfl
      | uniformBranch b clip val =>
          exact ih (.branch b clip (demoteChildren vol b clip val)) key v
            (wfu_demote vol b clip val) hkey
      | branch b clip ch =>
          have hkeyb : keyInClip key b clip := hkey
          have hnem : ∀ o, maskB b key o = true → ch o ≠ .empty := by
            intro o hm he
            exact masked_not_skip b key clip o hkeyb hm ((hwfu o).1 he)
          have hplid : populateList vol b clip key octList ch = .ok ch :=
            populateList_id vol b clip key octList ch
              (fun o _ hc => hnem o hc.1 (isEmptyB_eq _ hc.2))
          have hP : ∀ o ∈ octList, maskB b key o = true →
              WFU (ch o) ∧ keyInClip (interBox (ch o).boundsOf key)
                (ch o).boundsOf (ch o).clipOf := by
            intro o _ hm
            obtain ⟨hbo, hcc, hwo⟩ := (hwfu o).2 (hnem o hm)
            refine ⟨hwo, ?_⟩
            rw [hbo]
            exact keyInClip_child b key clip o (ch o).clipOf hkeyb hm
              (wfu_clip_cases b clip o (ch o) hwo hcc)
          constructor
          · intro h
            unfold nodeSet at h
            by_cases hcond : (OVal.fastOk v && fastKeyOk b clip key) = true
            · rw [if_pos hcond] at h
              cases h
            · rw [if_neg hcond] at h
              simp only [hplid] at h
              cases hwl : writeListF (fun c' k w => nodeSet f vol c' k w) key v b
                  octList ch with
              | error e =>
                  simp only [hwl] at h
                  cases h
                  exact writeListF_noPop (fun c' k w => nodeSet f vol c' k w) key v b
                    (fun m => WFU m ∧ keyInClip (interBox m.boundsOf key)
                      m.boundsOf m.clipOf)
                    (fun m hm => (ih m (interBox m.boundsOf key) _ hm.1 hm.2).1)
                    octList ch octList_nodup hP hwl
              | ok ch2 =>
                  simp only [hwl] at h
                  cases h
          · intro n' h
            unfold nodeSet at h
            by_cases hcond : (OVal.fastOk v && fastKeyOk b clip key) = true
            · rw [if_pos hcond] at h
              cases h
              trivial
            · rw [if_neg hcond] at h
              simp only [hplid] at h
              cases hwl : writeListF (fun c' k w => nodeSet f vol c' k w) key v b
                  octList ch with
              | error e => simp only [hwl] at h; cases h
              | ok ch2 =>
                  simp only [hwl] at h
                  cases h
                  obtain ⟨hwlout, hwlin⟩ :=
                    writeListF_spec (fun c' k w => nodeSet f vol c' k w) key v b
                      octList ch ch2 octList_nodup hwl
                  intro o
                  by_cases hm : maskB b key o = true
                  · have hne := hnem o hm
                    obtain ⟨hbo, hcc, hwo⟩ := (hwfu o).2 hne
                    have hset2 := (hwlin o (octList_complete o)).2 hm
                    have hshape := nodeSet_shape vol f (ch o) _ _ (ch2 o) hset2
                    have hkind := nodeSet_kind_clip vol f (ch o) _ _ (ch2 o) hset2
                    have hPo := hP o (octList_complete o) hm
                    have hwfu2 := (ih (ch o) _ _ hPo.1 hPo.2).2 (ch2 o) hset2
                    constructor
                    · intro he
                      rw [he] at hshape
                      exact absurd hshape.1 (by decide)
                    · intro hne2
                      refine ⟨hshape.2.trans hbo, ?_, hwfu2⟩
                      cases hc2 : ch2 o with
                      | empty => trivial
                      | leaf b2 cl2 sh2 d2 => trivial
                      | uniformLeaf b2 cl2 v2 => trivial
                      | branch b2 cl2 chh =>
                          have hbr2 : (ch2 o).isBranchB = true ∨
                              (ch2 o).isUniformBranchB = true := by
                            rw [hc2]
                            exact Or.inl rfl
                          have hfin : (ch2 o).clipOf = (getChildBounds b clip o).2 :=
                            (hkind.2 hbr2).trans
                              (branchy_clip_eq b clip o (ch o) hcc (hkind.1.mp hbr2))
                          rw [hc2] at hfin
                          exact hfin
                      | uniformBranch b2 cl2 v2 =>
                          have hbr2 : (ch2 o).isBranchB = true ∨
                              (ch2 o).isUniformBranchB = true := by
                            rw [hc2]
                            exact Or.inr rfl
                          have hfin : (ch2 o).clipOf = (getChildBounds b clip o).2 :=
                            (hkind.2 hbr2).trans
                              (branchy_clip_eq b clip o (ch o) hcc (hkind.1.mp hbr2))
                          rw [hc2] at hfin
                          exact hfin
                  · have hmf : maskB b key o = false := by
                      cases hmb : maskB b key o
                      · rfl
                      · exact absurd hmb hm
                    have heq : ch2 o = ch o := (hwlin o (octList_complete o)).1 hmf
                    rw [heq]
                    exact hwfu o

/-- Writing into a leaf block and reading the same window back returns
the written values, cast to the dtype. -/
theorem leaf_write_read (M : ℕ) (b1 : V3) (data : Blk) (key : Box) (v : OVal)
    (hb : ∀ a : Fin 3, b1 a ≤ key.1 a) :
    ∀ p : V3, allLt p (vsub key.2 key.1) →
      leafRead b1 (leafWrite M b1 data key v) key p = vcast M (v.valAt p) := by
  intro p hp
  unfold leafRead leafWrite
  rw [if_pos]
  · have harg : vsub (vadd p (vsub key.1 b1)) (vsub key.1 b1) = p := by
      funext a
      simp only [vsub, vadd]
      omega
    rw [harg]
  · intro a
    have h1 := hp a
    have h2 := hb a
    simp only [vsub, vadd] at h1 ⊢
    omega

/-- Core roundtrip: a successful write into a well-formed node followed
by a read of the same query returns exactly the written values (cast to
the dtype), pointwise over the whole query extent. -/
theorem set_then_get (vol : OctreeMatrix) :
    ∀ (f : ℕ) (n : ONode) (key : Box) (v : OVal) n',
      WF n → keyIn key n.boundsOf → ValShapeOk key v →
      nodeSet f vol n key v = .ok n' →
      ∃ blk n'', nodeGet f vol n' key = .ok (blk, n'') ∧
        ∀ p : V3, allLt p (vsub key.2 key.1) →
          blk p = vcast vol.M (v.valAt p) := by
  intro f
  induction f with
  | zero => intro n key v n' _ _ _ h; cases h
  | succ f ih =>
      intro n key v n' hwf hkey hval hset
      cases n with
      | empty => cases hset
      | leaf b c sh data =>
          cases hset
          exact ⟨_, _, rfl, leaf_write_read vol.M b.1 data key v (fun a => (hkey a).1)⟩
      | uniformLeaf b c val =>
          unfold nodeSet at hset
          cases hbf : broadcastFill vol.M (vsub b.2 b.1) val with
          | error e => simp only [hbf] at hset; cases hset
          | ok data0 =>
              simp only [hbf] at hset
              cases hset
              exact ⟨_, _, rfl, leaf_write_read vol.M b.1 data0 key v (fun a => (hkey a).1)⟩
      | uniformBranch b clip val =>
          unfold nodeSet at hset
          have hwfd : WF (.branch b clip (demoteChildren vol b clip val)) := by
            intro o
            unfold demoteChildren
            by_cases hskip : (match (getChildBounds b clip o).2 with
                | some cc => anyGt (getChildBounds b clip o).1.1 cc
                | none => false) = true
            · rw [if_pos hskip]
              exact Or.inl rfl
            · rw [if_neg hskip]
              by_cases hA : anyLe (vsub (getChildBounds b clip o).1.2
                  (getChildBounds b clip o).1.1) vol.leafSize = true
              · rw [if_pos hA]
                exact Or.inr ⟨rfl, trivial⟩
              · rw [if_neg hA]
                exact Or.inr ⟨rfl, trivial⟩
          obtain ⟨blk, n'', hget, hv⟩ := ih _ key v n' hwfd hkey hval hset
          exact ⟨blk, n'', nodeGet_mono vol f n' key _ hget, hv⟩
      | branch b clip ch =>
          unfold nodeSet at hset
          by_cases hcond : (OVal.fastOk v && fastKeyOk b clip key) = true
          · rw [if_pos hcond] at hset
            cases hset
            cases v with
            | scalar w =>
                exact ⟨_, _, rfl, fun p _ => rfl⟩
            | block sh d =>
                have hsh : sh = vsub key.2 key.1 := hval
                have hcompat : ∀ a : Fin 3, sh a = vsub key.2 key.1 a ∨ sh a = 1 :=
                  fun a => Or.inl (by rw [hsh])
                refine ⟨fun p => vcast vol.M (d (fun a => if sh a = 1 then 0 else p a)),
                        .uniformBranch b clip (.block sh d), ?_, fun p hp => ?_⟩
                · have hbf2 : broadcastFill vol.M (vsub key.2 key.1) (.block sh d) =
                      .ok (fun p => vcast vol.M (d fun a => if sh a = 1 then 0 else p a)) := by
                    simp only [broadcastFill]
                    rw [if_pos hcompat]
                  unfold nodeGet
                  rw [hbf2]
                  rfl
                · show vcast vol.M (d (fun a => if sh a = 1 then 0 else p a)) =
                    vcast vol.M (OVal.valAt (.block sh d) p)
                  have hidx : (fun a => if sh a = 1 then 0 else p a) = p := by
                    funext a
                    by_cases h1 : sh a = 1
                    · rw [if_pos h1]
                      have hpa := hp a
                      rw [hsh] at h1
                      omega
                    · rw [if_neg h1]
                  rw [hidx]
                  rfl
          · rw [if_neg hcond] at hset
            cases hpl : populateList vol b clip key octList ch with
            | error e => simp only [hpl] at hset; cases hset
            | ok ch1 =>
                simp only [hpl] at hset
                cases hwl : writeListF (fun c k w => nodeSet f vol c k w) key v b
                    octList ch1 with
                | error e => simp only [hwl] at hset; cases hset
                | ok ch2 =>
                    simp only [hwl] at hset
                    cases hset
                    obtain ⟨hplout, hplin⟩ :=
                      populateList_spec vol b clip key octList ch ch1 octList_nodup hpl
                    obtain ⟨hwlout, hwlin⟩ :=
                      writeListF_spec (fun c k w => nodeSet f vol c k w) key v b
                        octList ch1 ch2 octList_nodup hwl
                    have hch1 : ∀ o, maskB b key o = true →
                        (ch1 o).isEmptyB = false ∧ (ch1 o).boundsOf = octBox b o ∧
                        WF (ch1 o) := by
                      intro o hm
                      by_cases he : (ch o).isEmptyB = true
                      · exact populateChild_shape vol b clip o (ch1 o)
                          ((hplin o (octList_complete o)).2 ⟨hm, he⟩)
                      · have heq := (hplin o (octList_complete o)).1
                          (fun hcontra => he hcontra.2)
                        rw [heq]
                        rcases hwf o with h0 | h0
                        · exact absurd (by rw [h0]; rfl) he
                        · refine ⟨?_, h0.1, h0.2⟩
                          exact Bool.not_eq_true _ ▸ he
                    have hch2 : ∀ o, maskB b key o = true →
                        nodeSet f vol (ch1 o) (interBox (ch1 o).boundsOf key)
                          (v.shift (vsub (interBox (ch1 o).boundsOf key).1 key.1)
                            (vsub (interBox (ch1 o).boundsOf key).2
                              (interBox (ch1 o).boundsOf key).1)) = .ok (ch2 o) :=
                      fun o hm => (hwlin o (octList_complete o)).2 hm
                    have hb2 : ∀ o, maskB b key o = true →
                        (ch2 o).boundsOf = octBox b o ∧ (ch2 o).isEmptyB = false := by
                      intro o hm
                      have hsh := nodeSet_shape vol f _ _ _ _ (hch2 o hm)
                      exact ⟨hsh.2.trans (hch1 o hm).2.1, hsh.1⟩
                    have hpl2 : populateList vol b clip key octList ch2 = .ok ch2 := by
                      refine populateList_id vol b clip key octList ch2 (fun o _ hc => ?_)
                      have := (hb2 o hc.1).2
                      rw [hc.2] at this
                      cases this
                    have Hread : ∀ o ∈ octList, maskB b key o = true →
                        ∃ blko c',
                          nodeGet f vol (ch2 o) (interBox (ch2 o).boundsOf key) =
                            .ok (blko, c') ∧
                          ∀ p, inWin key (interBox (ch2 o).boundsOf key) p →
                            blko (vsub p (vsub (interBox (ch2 o).boundsOf key).1 key.1)) =
                              vcast vol.M (v.valAt p) := by
                      intro o _ hm
                      have hbo : (ch2 o).boundsOf = (ch1 o).boundsOf :=
                        (nodeSet_shape vol f _ _ _ _ (hch2 o hm)).2
                      rw [hbo]
                      set sub := interBox (ch1 o).boundsOf key with hsub
                      have hkeyin : keyIn sub (ch1 o).boundsOf := by
                        intro a
                        have hf := inter_facts (ch1 o).boundsOf key a
                        rw [← hsub] at hf
                        exact ⟨hf.1, hf.2.2.1⟩
                      have hvs : ValShapeOk sub
                          (v.shift (vsub sub.1 key.1) (vsub sub.2 sub.1)) := by
                        cases v with
                        | scalar w => trivial
                        | block sh2 d2 => exact rfl
                      obtain ⟨blko, c'', hgeto, hvo⟩ :=
                        ih (ch1 o) sub _ (ch2 o) (hch1 o hm).2.2 hkeyin hvs (hch2 o hm)
                      refine ⟨blko, c'', hgeto, fun p hw => ?_⟩
                      have hsub1 : ∀ a : Fin 3, key.1 a ≤ sub.1 a := by
                        intro a
                        have hf := inter_facts (ch1 o).boundsOf key a
                        rw [← hsub] at hf
                        exact hf.2.1
                      have hq : allLt (vsub p (vsub sub.1 key.1)) (vsub sub.2 sub.1) := by
                        intro a
                        have hw1 := (hw a).1
                        have hw2 := (hw a).2
                        have := hsub1 a
                        simp only [vsub] at hw1 hw2 ⊢
                        omega
                      have := hvo _ hq
                      rw [this]
                      congr 1
                      cases v with
                      | scalar w => rfl
                      | block sh2 d2 =>
                          show d2 (vadd (vsub p (vsub sub.1 key.1)) (vsub sub.1 key.1)) = d2 p
                          congr 1
                          funext a
                          have hw1 := (hw a).1
                          have := hsub1 a
                          simp only [vadd, vsub] at hw1 ⊢
                          omega
                    obtain ⟨blk, ch3, hread, hcover⟩ :=
                      readListF_ok (fun c k => nodeGet f vol c k) b key
                        (fun p => vcast vol.M (v.valAt p)) octList ch2 (fun _ => 0)
                        octList_nodup Hread
                    refine ⟨blk, .branch b clip ch3, ?_, fun p hp => ?_⟩
                    · show nodeGet (f + 1) vol (.branch b clip ch2) key = _
                      unfold nodeGet
                      simp only [hpl2, hread]
                    · set q : V3 := vadd key.1 p with hq
                      have hqkey : ∀ a : Fin 3, key.1 a ≤ q a ∧ q a < key.2 a := by
                        intro a
                        have := hp a
                        simp only [hq, vadd, vsub] at this ⊢
                        omega
                      have hkeyb : keyIn key b := hkey
                      have hqbox : ∀ a : Fin 3, b.1 a ≤ q a ∧ q a < b.2 a := by
                        intro a
                        have h1 := (hqkey a).1
                        have h2 := (hqkey a).2
                        have h3 := (hkeyb a).1
                        have h4 := (hkeyb a).2
                        constructor <;> omega
                      have hm := mask_octOfPt b key q hqkey
                      have hmem := octOfPt_mem b q hqbox
                      refine (hcover p).1 ⟨octOfPt b q, octList_complete _, hm, ?_⟩
                      rw [(hb2 _ hm).1]
                      intro a
                      have hf := inter_facts (octBox b (octOfPt b q)) key a
                      have hmem1 := (hmem a).1
                      have hmem2 := (hmem a).2
                      have hqk1 := (hqkey a).1
                      have hqk2 := (hqkey a).2
                      have hs1q : (interBox (octBox b (octOfPt b q)) key).1 a ≤ q a :=
                        hf.2.2.2.2.1 (q a) hmem1 hqk1
                      have hqs2 : q a + 1 ≤ (interBox (octBox b (octOfPt b q)) key).2 a :=
                        hf.2.2.2.2.2 (q a + 1) (by omega) (by omega)
                      have hk1s1 := hf.2.1
                      have hqdef : q a = key.1 a + p a := by simp [hq, vadd]
                      constructor <;> omega

/-- For a branch whose box side is leaf_size times 2^j on every axis
(the shape of every branch the construction and subdivision rules ever
produce), the per-axis condition child size at most leaf_size has the
same truth value on all three axes, so the np.any test of the source
coincides with the all-axes condition. -/
theorem anyLe_child_iff_allLe (vol : OctreeMatrix) (b : Box) (clip : Option V3)
    (o : Oct) (j : ℕ) (hpos : ∀ a : Fin 3, 1 ≤ vol.leafSize a)
    (hsz : ∀ a : Fin 3, b.2 a = b.1 a + vol.leafSize a * 2 ^ j) :
    (anyLe (vsub (getChildBounds b clip o).1.2 (getChildBounds b clip o).1.1)
        vol.leafSize = true) ↔
      allLe (vsub (getChildBounds b clip o).1.2 (getChildBounds b clip o).1.1)
        vol.leafSize := by
  have haxis : ∀ a : Fin 3,
      vsub (getChildBounds b clip o).1.2 (getChildBounds b clip o).1.1 a =
        (if oi o a then vol.leafSize a * 2 ^ j - vol.leafSize a * 2 ^ j / 2
         else vol.leafSize a * 2 ^ j / 2) := by
    intro a
    simp only [getChildBounds, vsub, octMin, octMax, midpt]
    rw [hsz a]
    split <;> omega
  have hsame : ∀ a a' : Fin 3,
      vsub (getChildBounds b clip o).1.2 (getChildBounds b clip o).1.1 a ≤
        vol.leafSize a →
      vsub (getChildBounds b clip o).1.2 (getChildBounds b clip o).1.1 a' ≤
        vol.leafSize a' := by
    intro a a' h
    rw [haxis a] at h
    rw [haxis a']
    match j with
    | 0 =>
        have := hpos a'
        simp only [pow_zero, mul_one] at h ⊢
        split <;> omega
    | 1 =>
        have := hpos a'
        simp only [pow_one] at h ⊢
        split <;> omega
    | j + 2 =>
        exfalso
        have h2 : 1 ≤ 2 ^ j := Nat.one_le_two_pow
        have hla : 1 ≤ vol.leafSize a := hpos a
        have hmul : vol.leafSize a ≤ vol.leafSize a * 2 ^ j :=
          Nat.le_mul_of_pos_right _ (by omega)
        have hpow : vol.leafSize a * 2 ^ (j + 2) = 4 * (vol.leafSize a * 2 ^ j) := by
          ring
        rw [hpow] at h
        split at h <;> omega
  constructor
  · intro hA
    have := of_decide_eq_true hA
    obtain ⟨a, ha⟩ := this
    exact fun a' => hsame a a' ha
  · intro hall
    exact decide_eq_true ⟨0, hall 0⟩

/-- C4 (confirmed): for every branch of the shape the tree actually
builds (box side leaf_size times 2^j per axis, positive leaf_size), an
absent child is installed by populate_child as a LeafNode exactly when
the computed child size is at most leaf_size on every axis (the
source's np.any test coincides with the every-axis test on these
shapes), with data requested from the populator over the clip-reduced
child bounds; otherwise it is installed as an unpopulated BranchNode.
The children built by UniformBranchNode demotion obey the same rule
(uniform leaf versus uniform branch). -/
theorem c4_leaf_rule_confirmed (vol : OctreeMatrix) (P : Box → Blk) (b : Box)
    (clip : Option V3) (o : Oct) (j : ℕ) (hp : vol.populator = some P)
    (hpos : ∀ a : Fin 3, 1 ≤ vol.leafSize a)
    (hsz : ∀ a : Fin 3, b.2 a = b.1 a + vol.leafSize a * 2 ^ j) :
    (∀ n, populateChild vol b clip o = .ok n →
        (n.isLeafB = true ↔
          allLe (vsub (getChildBounds b clip o).1.2 (getChildBounds b clip o).1.1)
            vol.leafSize)
        ∧ (n.isLeafB = true →
            n = .leaf (getChildBounds b clip o).1 none
              (vsub (popUpper b clip o) (getChildBounds b clip o).1.1)
              (fun p => vcast vol.M (P ((getChildBounds b clip o).1.1, popUpper b clip o) p)))
        ∧ (n.isLeafB = false →
            n = .branch (getChildBounds b clip o).1 (getChildBounds b clip o).2
              (fun _ => .empty)))
    ∧ (∀ val, (demoteChildren vol b clip val o).isEmptyB = false →
        ((demoteChildren vol b clip val o).isUniformLeafB = true ↔
          allLe (vsub (getChildBounds b clip o).1.2 (getChildBounds b clip o).1.1)
            vol.leafSize)) := by
  have hkey := anyLe_child_iff_allLe vol b clip o j hpos hsz
  constructor
  · intro n hn
    unfold populateChild at hn
    simp only [hp] at hn
    by_cases hA : anyLe (vsub (getChildBounds b clip o).1.2 (getChildBounds b clip o).1.1)
        vol.leafSize = true
    · rw [if_pos hA] at hn
      cases hn
      refine ⟨?_, ?_, ?_⟩
      · exact ⟨fun _ => hkey.mp hA, fun _ => rfl⟩
      · intro _; rfl
      · intro hfalse; simp [ONode.isLeafB] at hfalse
    · rw [if_neg hA] at hn
      cases hn
      refine ⟨?_, ?_, ?_⟩
      · constructor
        · intro hfalse; simp [ONode.isLeafB] at hfalse
        · intro hall; exact absurd (hkey.mpr hall) hA
      · intro hfalse; simp [ONode.isLeafB] at hfalse
      · intro _; rfl
  · intro val hne
    unfold demoteChildren at hne ⊢
    by_cases hskip : (match (getChildBounds b clip o).2 with
        | some cc => anyGt (getChildBounds b clip o).1.1 cc
        | none => false) = true
    · rw [if_pos hskip] at hne
      cases hne
    · rw [if_neg hskip] at hne ⊢
      by_cases hA : anyLe (vsub (getChildBounds b clip o).1.2 (getChildBounds b clip o).1.1)
          vol.leafSize = true
      · rw [if_pos hA]
        constructor
        · intro _; exact hkey.mp hA
        · intro _; rfl
      · rw [if_neg hA]
        constructor
        · intro hfalse; simp [ONode.isUniformLeafB] at hfalse
        · intro hall; exact absurd (hkey.mpr hall) hA

/-- C4 (witness): the rule at the concrete branch over
(0,0,0)..(10,10,10) with clip (10,6,5) in the main populated scenario:
its child in the (low, high-y, low) octant has size (5,5,5), at most
leaf_size on every axis, and is installed as a leaf. -/
theorem c4_leaf_rule_witness :
    allLe (vsub (getChildBounds (![0, 0, 0], ![10, 10, 10]) (some ![10, 6, 5])
          (false, true, false)).1.2
        (getChildBounds (![0, 0, 0], ![10, 10, 10]) (some ![10, 6, 5])
          (false, true, false)).1.1) scenVolP.leafSize ∧
    ∀ n, populateChild scenVolP (![0, 0, 0], ![10, 10, 10]) (some ![10, 6, 5])
        (false, true, false) = .ok n → n.isLeafB = true := by
  refine ⟨by decide, fun n hn => ?_⟩
  exact ((c4_leaf_rule_confirmed scenVolP constPop (![0, 0, 0], ![10, 10, 10])
      (some ![10, 6, 5]) (false, true, false) 1 rfl (by decide)
      (by decide)).1 n hn).1.mpr (by decide)

/-- C8 (counterexample): with leaf_size (5,5,5), positive on every
axis, and declared bounds ((0,0,0),(2,2,2)), construction does not
fail, and the root box it builds is degenerate (side 0) rather than the
minimal covering cube of side 5: the uint64 cast of exp2(ceil(log2(
extent / leaf))) truncates the factor to 0 because every ratio is at
most one half. -/
theorem c8_small_extent_counterexample :
    (∀ a : Fin 3, 1 ≤ (![5, 5, 5] : V3) a) ∧
    (mkVolume ![5, 5, 5] ![0, 0, 0] ![2, 2, 2] 256 none).2.boundsOf.2 0 = 0 ∧
    (mkVolume ![5, 5, 5] ![0, 0, 0] ![2, 2, 2] 256 none).1.bHi 0 = 2 ∧
    ¬ ((mkVolume ![5, 5, 5] ![0, 0, 0] ![2, 2, 2] 256 none).1.bHi 0 ≤
       (mkVolume ![5, 5, 5] ![0, 0, 0] ![2, 2, 2] 256 none).2.boundsOf.2 0) := by
  refine ⟨by decide, rfl, rfl, by decide⟩

/-- C8 (amended): OctreeMatrix.__init__ performs no validation of
leaf_size and raises no configuration error; it always builds a root
BranchNode from bounds.min over leaf_size times the maximum per-axis
factor, with clip bound bounds.max. When some axis has
2 * extent > leaf_size the factor is the least power of two whose
leaf-sized multiple covers every axis (so the box covers the declared
extent and the factor is minimal); when every axis has
2 * extent <= leaf_size the factor truncates to 0 and the root box is
degenerate, covering nothing. -/
theorem c8_construction_amended (l b0 b1 : V3) (M : ℕ) (pop : Option (Box → Blk))
    (hpos : ∀ a : Fin 3, 1 ≤ l a) (hb : ∀ a : Fin 3, b0 a ≤ b1 a) :
    (mkVolume l b0 b1 M pop).2 =
      .branch (b0, fun a => b0 a + l a * maxFactor l b0 b1) (some b1) (fun _ => .empty)
    ∧ ((∃ a : Fin 3, l a < 2 * (b1 a - b0 a)) →
        ∀ a : Fin 3, b1 a ≤ b0 a + l a * maxFactor l b0 b1)
    ∧ (∀ k : ℕ, (∀ a : Fin 3, b1 a - b0 a ≤ l a * 2 ^ k) → maxFactor l b0 b1 ≤ 2 ^ k)
    ∧ ((∀ a : Fin 3, 2 * (b1 a - b0 a) ≤ l a) → maxFactor l b0 b1 = 0) := by
  refine ⟨rfl, ?_, ?_, ?_⟩
  · rintro ⟨a0, ha0⟩ a
    have hmax1 : 1 ≤ maxFactor l b0 b1 := by
      have h1 : 1 ≤ upFactor (b1 a0 - b0 a0) (l a0) := upFactor_one_le _ _ ha0
      have : upFactor (b1 a0 - b0 a0) (l a0) ≤ maxFactor l b0 b1 := by
        unfold maxFactor
        fin_cases a0 <;> simp
      omega
    by_cases hsm : 2 * (b1 a - b0 a) ≤ l a
    · have : b1 a - b0 a ≤ l a * maxFactor l b0 b1 := by nlinarith
      omega
    · have hcov : b1 a - b0 a ≤ l a * upFactor (b1 a - b0 a) (l a) :=
        upFactor_covers _ _ (hpos a) (by omega)
      have hle : upFactor (b1 a - b0 a) (l a) ≤ maxFactor l b0 b1 := by
        unfold maxFactor
        fin_cases a <;> simp
      have : l a * upFactor (b1 a - b0 a) (l a) ≤ l a * maxFactor l b0 b1 :=
        Nat.mul_le_mul_left _ hle
      have := hb a
      omega
  · intro k hk
    unfold maxFactor
    have h0 := upFactor_le_pow _ _ _ (hk 0)
    have h1 := upFactor_le_pow _ _ _ (hk 1)
    have h2 := upFactor_le_pow _ _ _ (hk 2)
    simp only [Nat.max_le]
    exact ⟨⟨h0, h1⟩, h2⟩
  · intro hsm
    unfold maxFactor upFactor
    rw [if_pos (hsm 0), if_pos (hsm 1), if_pos (hsm 2)]
    rfl

/-- C1 (counterexample): on the code-constructible degenerate volume
with leaf_size (5,5,5) and bounds ((0,0,0),(2,2,2)) — every axis has
2 * extent <= leaf_size, so the root box factor truncates to 0 and the
root box is the single point ((0,0,0),(0,0,0)) — the single-voxel key
at the origin passes validation, set(key, 7) succeeds, and the
following get(key) also succeeds but returns the untouched output
chunk (0, modelling the uninitialized np.empty), not the written 7:
the validated key lies outside the root box, so the write and the read
are confined to the degenerate octant, whose intersection window with
the query is empty. -/
theorem c1_roundtrip_counterexample :
    getCheckedNpKey degVol degKey = .ok (keyLo degKey, keyHi degKey) ∧
    (exToOpt degSet).isSome = true ∧
    (exToOpt degGet).isSome = true ∧
    degBlk ![0, 0, 0] = 0 ∧
    vcast degVol.M 7 = 7 ∧
    degRoot.boundsOf.2 0 = 0 ∧
    keyHi degKey 0 = 1 := ⟨rfl, rfl, rfl, rfl, rfl, rfl, rfl⟩

/-- C1 (corrected): for every valid non-degenerate in-bounds key on a
well-formed volume state and every value of the dtype (a scalar, or a
dense block exactly matching the query extent), a successful
set(key, v) — success covers every populator invocation required along
the way — followed by get(key) returns v exactly, elementwise for
blocks, at every position of the query extent, PROVIDED the validated
key lies inside the root box. The proviso holds for every volume whose
root box covers the declared bounds (whenever 2 * extent > leaf_size
on some axis, cf. C8) and is where the original claim fails: on the
degenerate volumes the construction also builds, a validated key
escapes the point-sized root box, the set is silently lost and the get
returns uninitialized chunk contents. -/
theorem c1_roundtrip_amended (fuel : ℕ) (vol : OctreeMatrix) (root : ONode)
    (key : List Sel) (v : OVal) (root' : ONode)
    (hwf : WF root) (hin : keyIn (keyLo key, keyHi key) root.boundsOf)
    (hshape : ValShapeOk (keyLo key, keyHi key) v)
    (hfit : ∀ p, vcast vol.M (v.valAt p) = v.valAt p)
    (hset : volSet fuel vol root key v = .ok root') :
    ∃ blk root'', volGet fuel vol root' key = .ok (blk, root'') ∧
      ∀ p : V3, allLt p (vsub (keyHi key) (keyLo key)) → blk p = v.valAt p := by
  unfold volSet at hset
  cases hk : getCheckedNpKey vol key with
  | error e => rw [hk] at hset; cases hset
  | ok kb =>
      rw [hk] at hset
      have hkb : kb = (keyLo key, keyHi key) := by
        unfold getCheckedNpKey at hk
        split_ifs at hk
        cases hk
        rfl
      subst hkb
      obtain ⟨blk, n'', hget, hv⟩ :=
        set_then_get vol fuel root (keyLo key, keyHi key) v root' hwf hin hshape hset
      refine ⟨blk, n'', ?_, fun p hp => ?_⟩
      · unfold volGet
        rw [hk]
        exact hget
      · rw [hv p hp, hfit]

/-- C1 (witness): writing the scalar 7 over the box (1,5,0)..(3,6,2)
of the populated main scenario and reading it back returns 7
everywhere on the query extent. -/
theorem c1_roundtrip_witness :
    volSet 9 scenVolP scenRoot c1Key (.scalar 7) = .ok c1Tree ∧
    ∃ blk root'', volGet 9 scenVolP c1Tree c1Key = .ok (blk, root'') ∧
      ∀ p : V3, allLt p (vsub (keyHi c1Key) (keyLo c1Key)) →
        blk p = OVal.valAt (.scalar 7) p := by
  refine ⟨rfl, ?_⟩
  exact c1_roundtrip_amended 9 scenVolP scenRoot c1Key (.scalar 7) c1Tree
    (fun o => Or.inl rfl) (by decide) trivial (fun p => rfl) rfl

/-- C2 (counterexample): the fast-path guard accepts not only scalars
but any value of length 1. In the tiny volume with bounds
((0,0,0),(1,1,1)), writing a dense block of shape (1,1,1) (not a
scalar) over the full clip-bounded extent of the root BranchNode turns
it into a UniformBranchNode, so the scalar-only fast path is not the
only way a branch becomes uniform. -/
theorem c2_block_value_counterexample :
    tinyRoot.isBranchB = true ∧
    tinyBlockVal.isScalar = false ∧
    (exToOpt tinySet).map ONode.isUniformBranchB = some true := ⟨rfl, rfl, rfl⟩

/-- C2 (amended): a set on a BranchNode whose query runs exactly from
the node minimum to its clip bound, with a value passing the
len(value) == 1 guard (a scalar, or a block whose first axis has
length 1), replaces the node by a UniformBranchNode carrying that
value, without touching or populating any child (the result is the
same for every populator, including none); this guard condition is the
only way a set turns a branch into a uniform node, and a get never
does. -/
theorem c2_fast_path_amended (f : ℕ) (vol : OctreeMatrix) (b : Box) (clip : Option V3)
    (ch : Oct → ONode) :
    (∀ c v, clip = some c → OVal.fastOk v = true →
        nodeSet (f + 1) vol (.branch b clip ch) (b.1, c) v = .ok (.uniformBranch b clip v))
    ∧ (∀ g key v n', nodeSet g vol (.branch b clip ch) key v = .ok n' →
        n'.isUniformB = true → OVal.fastOk v = true ∧ fastKeyOk b clip key = true)
    ∧ (∀ g key blk n', nodeGet g vol (.branch b clip ch) key = .ok (blk, n') →
        n'.isBranchB = true) := by
  refine ⟨fun c v hc hv => ?_, fun g key v n' hset huni => ?_, fun g key blk n' hget => ?_⟩
  · subst hc
    unfold nodeSet
    have hcnd : (OVal.fastOk v && fastKeyOk b (some c) (b.1, c)) = true := by
      simp [hv, fastKeyOk]
    rw [if_pos hcnd]
  · cases g with
    | zero => cases hset
    | succ g =>
        unfold nodeSet at hset
        by_cases hcond : (OVal.fastOk v && fastKeyOk b clip key) = true
        · exact Bool.and_eq_true_iff.mp hcond
        · exfalso
          rw [if_neg hcond] at hset
          cases hpl : populateList vol b clip key octList ch with
          | error e => simp only [hpl] at hset; cases hset
          | ok ch1 =>
              simp only [hpl] at hset
              cases hwl : writeListF (fun c k w => nodeSet g vol c k w) key v b octList ch1 with
              | error e => simp only [hwl] at hset; cases hset
              | ok ch2 =>
                  simp only [hwl] at hset
                  cases hset
                  cases huni
  · cases g with
    | zero => cases hget
    | succ g =>
        unfold nodeGet at hget
        cases hpl : populateList vol b clip key octList ch with
        | error e => simp only [hpl] at hget; cases hget
        | ok ch1 =>
            simp only [hpl] at hget
            cases hrl : readListF (fun c k => nodeGet g vol c k) b key octList ch1
                (fun _ => 0) with
            | error e => simp only [hrl] at hget; cases hget
            | ok r =>
                simp only [hrl] at hget
                cases hget
                rfl

/-- C2 (witness): the amended fast-path statement at the main scenario
root: the full-extent scalar write of 6 collapses the root branch to a
uniform branch node. -/
theorem c2_fast_path_witness :
    nodeSet 9 scenVol
      (.branch (![0, 0, 0], fun a => (![0, 0, 0] : V3) a +
          (![5, 5, 5] : V3) a * maxFactor ![5, 5, 5] ![0, 0, 0] ![11, 6, 5])
        (some ![11, 6, 5]) (fun _ => .empty))
      ((![0, 0, 0] : V3), (![11, 6, 5] : V3)) (.scalar 6) =
    .ok (.uniformBranch (![0, 0, 0], fun a => (![0, 0, 0] : V3) a +
          (![5, 5, 5] : V3) a * maxFactor ![5, 5, 5] ![0, 0, 0] ![11, 6, 5])
        (some ![11, 6, 5]) (.scalar 6)) :=
  (c2_fast_path_amended 8 scenVol _ (some ![11, 6, 5]) (fun _ => .empty)).1
    ![11, 6, 5] (.scalar 6) rfl rfl

/-- C5 (counterexample): a key of arity 3, inside the declared bounds,
with a non-empty interval and a slice whose explicit step is the unit
step 1, is rejected with IndexError by get_checked_np_key (the source
rejects every explicitly stepped slice, not only non-unit steps), so
the claim's otherwise-validation-succeeds branch fails here. -/
theorem c5_unit_step_counterexample :
    unitStepKey.length = 3 ∧
    unitStepKey.any Sel.hasNonUnitStep = false ∧
    (∀ a : Fin 3, scenVol.bLo a ≤ keyLo unitStepKey a ∧
        keyHi unitStepKey a ≤ scenVol.bHi a ∧
        keyLo unitStepKey a < keyHi unitStepKey a) ∧
    getCheckedNpKey scenVol unitStepKey = .error .indexErr ∧
    volGet 9 scenVol scenRoot unitStepKey = .error .indexErr ∧
    volSet 9 scenVol scenRoot unitStepKey (.scalar 3) = .error .indexErr := by
  exact ⟨rfl, rfl, by decide, rfl, rfl, rfl⟩

/-- C5 (amended): a key fails validation exactly when its arity is not
3, some slice carries an explicit step (unit or not), some interval
reaches outside the declared bounds, or some interval is empty or
inverted; on failure both get and set return the IndexError without
delegating to the tree (the root is left untouched), and otherwise both
proceed by delegating the canonical interval box to the root node. -/
theorem c5_key_validation_amended (vol : OctreeMatrix) (root : ONode) (f : ℕ)
    (key : List Sel) (v : OVal) :
    (badKey vol key ↔ getCheckedNpKey vol key = .error .indexErr)
    ∧ (badKey vol key → volGet f vol root key = .error .indexErr ∧
        volSet f vol root key v = .error .indexErr)
    ∧ (¬ badKey vol key → getCheckedNpKey vol key = .ok (keyLo key, keyHi key) ∧
        volGet f vol root key = nodeGet f vol root (keyLo key, keyHi key) ∧
        volSet f vol root key v = nodeSet f vol root (keyLo key, keyHi key) v) := by
  have hmain : (badKey vol key → getCheckedNpKey vol key = .error .indexErr) ∧
      (¬ badKey vol key → getCheckedNpKey vol key = .ok (keyLo key, keyHi key)) := by
    unfold badKey getCheckedNpKey
    constructor
    · intro h
      split_ifs with h1 h2 h3
      · rfl
      · rfl
      · rfl
      · exfalso
        rcases h with h | h | h | h | h
        · exact h1 h
        · exact h2 h
        · exact h3 (Or.inl h)
        · exact h3 (Or.inr (Or.inl h))
        · exact h3 (Or.inr (Or.inr h))
    · intro h
      split_ifs with h1 h2 h3
      · exact absurd (Or.inl h1) h
      · exact absurd (Or.inr (Or.inl h2)) h
      · rcases h3 with h3 | h3 | h3
        · exact absurd (Or.inr (Or.inr (Or.inl h3))) h
        · exact absurd (Or.inr (Or.inr (Or.inr (Or.inl h3)))) h
        · exact absurd (Or.inr (Or.inr (Or.inr (Or.inr h3)))) h
      · rfl
  refine ⟨⟨fun h => hmain.1 h, fun h => ?_⟩, fun h => ?_, fun h => ?_⟩
  · by_contra hb
    rw [hmain.2 hb] at h
    cases h
  · unfold volGet volSet
    rw [hmain.1 h]
    exact ⟨rfl, rfl⟩
  · refine ⟨hmain.2 h, ?_, ?_⟩ <;>
      (first
        | (unfold volGet; rw [hmain.2 h])
        | (unfold volSet; rw [hmain.2 h]))

/-- C5 (witness): the amended validation statement exercised at a
well-formed key of the main scenario, where validation succeeds and the
operation proceeds to the root. -/
theorem c5_key_validation_witness :
    ¬ badKey scenVol scenFullKey ∧
    volGet 9 scenVol scenRoot scenFullKey =
      nodeGet 9 scenVol scenRoot (keyLo scenFullKey, keyHi scenFullKey) := by
  refine ⟨by decide, ?_⟩
  exact ((c5_key_validation_amended scenVol scenRoot 9 scenFullKey (.scalar 0)).2.2
    (by decide)).2.1

/-- C6 (counterexample, spec-modelled fullness): in the concrete
scenario of the claim (leaf_size (5,5,5), bounds ((0,0,0),(11,6,5)),
uint8, full-extent write of 6, then single-voxel write at (8,5,4)),
the fraction of the clip-bounded volume held in non-uniform leaf
storage is 25/330 = 5/66, nowhere near 2/3; after the further write at
(10,5,4) inside the remaining uniform octant it is 30/330 = 1/11, not
1.0, because the leaves materialized by demotion cover only the written
octants while their siblings stay uniform. -/
theorem c6_fullness_counterexample :
    exToOpt scenSt2 = some scenTree2 ∧
    fullness scenVol scenTree2 = 5 / 66 ∧
    ¬ ((1 : ℚ) / 3 ≤ fullness scenVol scenTree2) ∧
    fullness scenVol scenTree2 ≠ 2 / 3 ∧
    exToOpt scenSt3 = some scenTree3 ∧
    fullness scenVol scenTree3 = 1 / 11 ∧
    fullness scenVol scenTree3 ≠ 1 := by
  have h2 : fullness scenVol scenTree2 = 5 / 66 := by
    unfold fullness
    rw [show leafClipVol scenVol.bLo scenVol.bHi scenTree2 = 25 from rfl,
        show boxVol (scenVol.bLo, scenVol.bHi) = 330 from rfl]
    norm_num
  have h3 : fullness scenVol scenTree3 = 1 / 11 := by
    unfold fullness
    rw [show leafClipVol scenVol.bLo scenVol.bHi scenTree3 = 30 from rfl,
        show boxVol (scenVol.bLo, scenVol.bHi) = 330 from rfl]
    norm_num
  refine ⟨rfl, h2, ?_, ?_, rfl, h3, ?_⟩
  · rw [h2]; norm_num
  · rw [h2]; norm_num
  · rw [h3]; norm_num

/-- C6 (amended, spec-modelled fullness): fullness is the fraction, in
[0,1], of the clip-bounded volume in materialized non-uniform leaf
storage; in the concrete scenario it equals 5/66 after the full-extent
write of 6 followed by the single-voxel write at (8,5,4), and 1/11
after the further single-voxel write at (10,5,4) in the remaining
uniform octant (not 2/3 and 1.0 as claimed). -/
theorem c6_fullness_amended :
    exToOpt scenSt2 = some scenTree2 ∧
    fullness scenVol scenTree2 = 5 / 66 ∧
    exToOpt scenSt3 = some scenTree3 ∧
    fullness scenVol scenTree3 = 1 / 11 ∧
    0 ≤ fullness scenVol scenTree2 ∧ fullness scenVol scenTree2 ≤ 1 ∧
    0 ≤ fullness scenVol scenTree3 ∧ fullness scenVol scenTree3 ≤ 1 := by
  have h2 : fullness scenVol scenTree2 = 5 / 66 := by
    unfold fullness
    rw [show leafClipVol scenVol.bLo scenVol.bHi scenTree2 = 25 from rfl,
        show boxVol (scenVol.bLo, scenVol.bHi) = 330 from rfl]
    norm_num
  have h3 : fullness scenVol scenTree3 = 1 / 11 := by
    unfold fullness
    rw [show leafClipVol scenVol.bLo scenVol.bHi scenTree3 = 30 from rfl,
        show boxVol (scenVol.bLo, scenVol.bHi) = 330 from rfl]
    norm_num
  rw [h2, h3]
  refine ⟨rfl, rfl, rfl, rfl, by norm_num, by norm_num, by norm_num, by norm_num⟩

/-- C7 (counterexample): in the main scenario with a populator, the
read at (0, 5, 0) lazily populates the child at path (low,low,low),
(low,high-y,low), a LeafNode with bounds (0,5,0)..(5,10,5) whose
populator bounds were clipped to (0,5,0)..(5,6,5): its dense block has
shape (5,1,5) while its get_size() is (5,5,5) (leaf nodes never carry a
clip bound), so the claimed invariant shape = get_size() fails. -/
theorem c7_clipped_leaf_counterexample :
    c7LeafNode = some c7Leaf ∧
    c7Leaf.isLeafB = true ∧
    c7Leaf.leafShape 1 = 1 ∧
    c7Leaf.getSize 1 = 5 ∧
    c7Leaf.leafShape ≠ c7Leaf.getSize := by
  refine ⟨rfl, rfl, rfl, rfl, fun h => ?_⟩
  have h1 := congrFun h 1
  rw [show c7Leaf.leafShape 1 = 1 from rfl, show c7Leaf.getSize 1 = 5 from rfl] at h1
  exact absurd h1 (by norm_num)

/-- C7 (amended): a LeafNode created by populate_child has a dense
block whose shape is the clip-reduced child size (the populator bounds
size), while its get_size() is the full child bounds size because leaf
nodes never store a clip bound; the two agree exactly when the child
clip bound is None. Leaves created by demoting a UniformLeafNode are
unclipped, so their block shape does equal their get_size(). -/
theorem c7_leaf_shape_amended (vol : OctreeMatrix) (P : Box → Blk) (b : Box)
    (clip : Option V3) (o : Oct) (hp : vol.populator = some P)
    (hsz : anyLe (vsub (getChildBounds b clip o).1.2 (getChildBounds b clip o).1.1)
      vol.leafSize = true) :
    (∃ d, populateChild vol b clip o =
        .ok (.leaf (getChildBounds b clip o).1 none
          (vsub (popUpper b clip o) (getChildBounds b clip o).1.1) d)) ∧
    (∀ n, populateChild vol b clip o = .ok n →
        n.leafShape = vsub (popUpper b clip o) (getChildBounds b clip o).1.1 ∧
        n.getSize = vsub (getChildBounds b clip o).1.2 (getChildBounds b clip o).1.1 ∧
        ((getChildBounds b clip o).2 = none → n.leafShape = n.getSize)) ∧
    (∀ f key v b2 c2 val n',
        nodeSet (f + 1) vol (.uniformLeaf b2 c2 val) key v = .ok n' →
        n'.isLeafB = true ∧ n'.leafShape = n'.getSize) := by
  have hpc : populateChild vol b clip o =
      .ok (.leaf (getChildBounds b clip o).1 none
        (vsub (popUpper b clip o) (getChildBounds b clip o).1.1)
        (fun p => vcast vol.M (P ((getChildBounds b clip o).1.1, popUpper b clip o) p))) := by
    unfold populateChild
    rw [hp]
    simp only [hsz, if_true]
  refine ⟨⟨_, hpc⟩, fun n hn => ?_, fun f key v b2 c2 val n' hn => ?_⟩
  · rw [hpc] at hn
    cases hn
    refine ⟨rfl, rfl, fun hnone => ?_⟩
    simp only [ONode.leafShape, ONode.getSize, ONode.boundsOf, ONode.clipOf, gsize]
    unfold popUpper
    rw [hnone]
  · unfold nodeSet at hn
    cases hbf : broadcastFill vol.M (vsub b2.2 b2.1) val with
    | error e => rw [hbf] at hn; cases hn
    | ok data0 =>
        rw [hbf] at hn
        cases hn
        exact ⟨rfl, rfl⟩

/-- C7 (witness): the amended shape statement at the concrete clipped
child of the main scenario: the populated leaf for octant
(low, high-y, low) of the node over (0,0,0)..(10,10,10) with clip bound
(10,6,5) has block shape (5,1,5) and get_size (5,5,5). -/
theorem c7_leaf_shape_witness :
    scenVolP.populator = some constPop ∧
    (∀ n, populateChild scenVolP (![0, 0, 0], ![10, 10, 10]) (some ![10, 6, 5])
        (false, true, false) = .ok n →
        n.leafShape = vsub (popUpper (![0, 0, 0], ![10, 10, 10]) (some ![10, 6, 5])
            (false, true, false))
          (getChildBounds (![0, 0, 0], ![10, 10, 10]) (some ![10, 6, 5])
            (false, true, false)).1.1) := by
  refine ⟨rfl, fun n hn => ?_⟩
  exact ((c7_leaf_shape_amended scenVolP constPop (![0, 0, 0], ![10, 10, 10])
    (some ![10, 6, 5]) (false, true, false) rfl (by decide)).2.1 n hn).1

/-- C10 (confirmed): a concrete valid get whose exclusive maximum
equals a node midpoint. In the main scenario with the encoding
populator, the read over (0,0,0)..(2,5,5) reaches the branch over
(0,0,0)..(10,10,10) with midpoint (5,5,5): its high-y octant
(low,high,low) is counted as intersecting although the overlap is
empty (y runs from 5 to 5), and the get materializes that leaf-sized
child, invoking the populator over its clip-reduced bounds
(0,5,0)..(5,6,5) — observable because its block (shape (5,1,5)) holds
the encoding 100 * 5 + 6 mod 256 = 250 of that disjoint region — while
every voxel of the returned block holds 5 = 100 * 0 + 5, the encoding
of the populator call (0,0,0)..(5,5,5) for the one overlapping child. -/
theorem c10_boundary_mask_confirmed :
    maskB (![0, 0, 0], ![10, 10, 10]) (![0, 0, 0], ![2, 5, 5]) (false, true, false) = true ∧
    (interBox (![0, 5, 0], ![5, 10, 5]) (![0, 0, 0], ![2, 5, 5])).2 1 ≤
      (interBox (![0, 5, 0], ![5, 10, 5]) (![0, 0, 0], ![2, 5, 5])).1 1 ∧
    c10LeafNode = some c10Leaf ∧
    c10Leaf.isLeafB = true ∧
    c10Leaf.boundsOf.1 1 = 5 ∧
    c10Leaf.leafShape 1 = 1 ∧
    (match c10Leaf with | .leaf _ _ _ d => d ![0, 0, 0] | _ => 0) = 250 ∧
    (∀ i < 2, ∀ j < 5, ∀ k < 5, c10Blk ![i, j, k] = 5) := by
  exact ⟨by decide, by decide, rfl, rfl, rfl, rfl, rfl, by decide⟩

/-- C8 (witness): the amended construction statement at the main
scenario volume. -/
theorem c8_construction_witness :
    (mkVolume ![5, 5, 5] ![0, 0, 0] ![11, 6, 5] 256 none).2 =
      .branch (![0, 0, 0], fun a => (![0, 0, 0] : V3) a +
          (![5, 5, 5] : V3) a * maxFactor ![5, 5, 5] ![0, 0, 0] ![11, 6, 5])
        (some ![11, 6, 5]) (fun _ => .empty)
    ∧ ∀ a : Fin 3, (![11, 6, 5] : V3) a ≤ (![0, 0, 0] : V3) a +
        (![5, 5, 5] : V3) a * maxFactor ![5, 5, 5] ![0, 0, 0] ![11, 6, 5] := by
  refine ⟨(c8_construction_amended ![5, 5, 5] ![0, 0, 0] ![11, 6, 5] 256 none
            (by decide) (by decide)).1,
          (c8_construction_amended ![5, 5, 5] ![0, 0, 0] ![11, 6, 5] 256 none
            (by decide) (by decide)).2.1 ⟨0, by decide⟩⟩

/-- C3 (counterexample): demotion is not confined to the written
region's ancestor chain, and untouched siblings are not always left
uniform. Writing the single voxel (8,5,4) (validated box
((8,5,4),(9,6,5))) into the uniform root of the main scenario rewrites
the octant at path (low,low,low),(high,high,high): its box starts at
z = 5, at the write key's exclusive maximum, so it is disjoint from
the written region and not an ancestor of it — yet the children mask
counts it as intersecting (query maximum equals the midpoint), and the
empty-window write of UniformLeafNode.__setitem__ replaces the uniform
leaf there by a dense, non-uniform LeafNode (still holding the
constant 6 in every cell). -/
theorem c3_demotion_locality_counterexample :
    nodeSet 9 scenVol (.uniformBranch scenUni.boundsOf scenUni.clipOf (.scalar 6))
      (![8, 5, 4], ![9, 6, 5]) (.scalar 5) = .ok c3Tree ∧
    scenUni.isUniformBranchB = true ∧
    (nodeAt c3Tree [(false, false, false), (true, true, true)]).isLeafB = true ∧
    (nodeAt c3Tree [(false, false, false), (true, true, true)]).isUniformB = false ∧
    (nodeAt c3Tree [(false, false, false), (true, true, true)]).boundsOf.1 2 = 5 ∧
    (![8, 5, 4], (![9, 6, 5] : V3)).2 2 = 5 ∧
    (match nodeAt c3Tree [(false, false, false), (true, true, true)] with
     | .leaf _ _ _ d => d ![0, 0, 0]
     | _ => 99) = 6 :=
  ⟨rfl, rfl, rfl, rfl, rfl, rfl, rfl⟩

/-- C3 (corrected): the value-level frame property of the claim holds —
after a write with a valid clipped key K into a region held by a
uniform scalar node, any subsequent successful read over a valid key
disjoint from K returns the original constant at every position and
leaves the tree unchanged, and the written key itself reads back the
new value. The structural clause is weaker than claimed: demotion
rewrites every child the children mask counts as intersecting,
including boundary octants whose overlap with the written key is empty
(query maximum equal to the midpoint), turning uniform leaves among
them into dense constant LeafNodes off the ancestor chain. The precise
structural invariant is SeededC: outside K every node is uniform with
the original scalar or a leaf constantly holding it, and empty slots
occur only where demotion skips them. -/
theorem c3_demotion_locality_amended (vol : OctreeMatrix) (f g : ℕ)
    (b : Box) (clip : Option V3) (c : ℕ) (v : OVal) (K key' : Box)
    (n' n2 : ONode) (blk : Blk)
    (hset : nodeSet f vol (.uniformBranch b clip (.scalar c)) K v = .ok n')
    (hv : ValShapeOk K v)
    (hK : keyInClip K b clip)
    (hkey' : keyInClip key' b clip)
    (hdisj : ∀ q : V3, (∀ a : Fin 3, key'.1 a ≤ q a ∧ q a < key'.2 a) → ¬ inB K q)
    (hget : nodeGet g vol n' key' = .ok (blk, n2)) :
    (n2 = n' ∧ ∀ p : V3, allLt p (vsub key'.2 key'.1) → blk p = vcast vol.M c) ∧
    SeededC vol.M c K n' ∧
    (∃ blkK nK, nodeGet f vol n' K = .ok (blkK, nK) ∧
      ∀ p : V3, allLt p (vsub K.2 K.1) → blkK p = vcast vol.M (v.valAt p)) := by
  have hsw : SeedW vol.M c (.uniformBranch b clip (.scalar c)) := rfl
  have hsub : ∀ a : Fin 3, K.1 a ≤ K.1 a ∧ K.2 a ≤ K.2 a :=
    fun a => ⟨le_refl _, le_refl _⟩
  have hsc : SeededC vol.M c K n' :=
    seeded_set vol c K f (.uniformBranch b clip (.scalar c)) K v n' hsw hK hsub hset
  have hshape := nodeSet_shape vol f (.uniformBranch b clip (.scalar c)) K v n' hset
  have hkind := nodeSet_kind_clip vol f (.uniformBranch b clip (.scalar c)) K v n' hset
  have hbr : n'.isBranchB = true ∨ n'.isUniformBranchB = true :=
    hkind.1.mpr (Or.inr rfl)
  have hclip' := hkind.2 hbr
  have hkey'n : keyInClip key' n'.boundsOf n'.clipOf := by
    rw [hshape.2, hclip']
    exact hkey'
  obtain ⟨hn2, hval⟩ := seeded_get vol c K g n' key' blk n2 hsc hkey'n hdisj hget
  refine ⟨⟨hn2, hval⟩, hsc, ?_⟩
  have hkin : keyIn K (ONode.boundsOf (.uniformBranch b clip (.scalar c))) :=
    fun a => ⟨(hK a).1, (hK a).2.2.1⟩
  obtain ⟨blkK, nK, hgK, hvK⟩ :=
    set_then_get vol f (.uniformBranch b clip (.scalar c)) K v n' trivial hkin hv hset
  exact ⟨blkK, nK, hgK, hvK⟩

/-- C3 (witness): in the main scenario, writing 5 at voxel (8,5,4) into
the uniform root holding 6 and then reading the disjoint corner box
(0,0,0)..(2,2,2) succeeds, returns 6 everywhere, leaves the tree
unchanged, and the resulting tree satisfies the seeded invariant. -/
theorem c3_demotion_locality_witness :
    ∃ blk n2,
      nodeGet 9 scenVol c3Tree (![0, 0, 0], ![2, 2, 2]) = .ok (blk, n2) ∧
      (n2 = c3Tree ∧ ∀ p : V3, allLt p (vsub ![2, 2, 2] ![0, 0, 0]) →
        blk p = vcast scenVol.M 6) ∧
      SeededC scenVol.M 6 (![8, 5, 4], ![9, 6, 5]) c3Tree := by
  have hsome : (nodeGet 9 scenVol c3Tree (![0, 0, 0], ![2, 2, 2])).toOption.isSome
      = true := rfl
  obtain ⟨r, hr⟩ : ∃ r, nodeGet 9 scenVol c3Tree (![0, 0, 0], ![2, 2, 2]) = .ok r := by
    cases hg : nodeGet 9 scenVol c3Tree (![0, 0, 0], ![2, 2, 2]) with
    | error e =>
        rw [hg] at hsome
        cases hsome
    | ok r => exact ⟨r, rfl⟩
  obtain ⟨blk, n2⟩ := r
  have hmain := c3_demotion_locality_amended scenVol 9 9 scenUni.boundsOf
    scenUni.clipOf 6 (.scalar 5) (![8, 5, 4], ![9, 6, 5]) (![0, 0, 0], ![2, 2, 2])
    c3Tree n2 blk rfl trivial (by decide) (by decide)
    (fun q hq hin => by
      have h1 := (hq 0).2
      have h2 := (hin 0).1
      simp at h1 h2
      omega)
    hr
  exact ⟨blk, n2, hr, hmain.1, hmain.2.1⟩

/-- C9 (confirmed): on a tree of the shape left behind by uniformizing
a region (WFU: absent children occur only in demotion-skipped slots,
children sit on their octant boxes with coherent clip bounds, leaves
and uniform leaves carry no clip bound), whose root is branch-shaped,
clipped to the declared bounds and covering them, no sequence of public
reads and writes ever raises the missing-populator error: demotion
re-seeds replacement children directly from the stored value and
populate_child is never reached. In particular a populator-less volume
whose root was made uniform by a full-extent scalar write can serve any
further valid operations without the no-populator error. -/
theorem c9_no_populator_safety_confirmed (vol : OctreeMatrix) (f : ℕ)
    (ops : List OOp) (root : ONode)
    (_hpop : vol.populator = none)
    (hwfu : WFU root)
    (hbr : root.isBranchB = true ∨ root.isUniformBranchB = true)
    (hclip : root.clipOf = some vol.bHi)
    (hbounds : ∀ a : Fin 3, root.boundsOf.1 a ≤ vol.bLo a ∧
      vol.bHi a ≤ root.boundsOf.2 a) :
    runOps f vol root ops ≠ .error .noPop := by
  induction ops generalizing root with
  | nil =>
      intro h
      cases h
  | cons op rest ihop =>
      intro h
      cases op with
      | readOp k =>
          unfold runOps at h
          cases hvk : getCheckedNpKey vol k with
          | error e =>
              have hvg : volGet f vol root k = .error e := by
                unfold volGet
                rw [hvk]
              simp only [hvg] at h
              cases h
              have := getCheckedNpKey_err vol k _ hvk
              cases this
          | ok kb =>
              have hkc : keyInClip kb root.boundsOf root.clipOf := by
                intro a
                obtain ⟨hl, hm, hr2⟩ := getCheckedNpKey_ok vol k kb hvk a
                have hb1 := (hbounds a).1
                have hb2 := (hbounds a).2
                refine ⟨le_trans hb1 hl, le_of_lt hm, le_trans hr2 hb2, ?_⟩
                intro cv hcv
                rw [hclip] at hcv
                cases hcv
                exact le_trans hr2 (le_refl _)
              have hg := wfu_get vol f root kb hwfu hkc
              cases hget : nodeGet f vol root kb with
              | error e =>
                  have hvg : volGet f vol root k = .error e := by
                    unfold volGet
                    rw [hvk]
                    exact hget
                  simp only [hvg] at h
                  cases h
                  exact hg.1 hget
              | ok r =>
                  obtain ⟨blk, root1⟩ := r
                  have hvg : volGet f vol root k = .ok (blk, root1) := by
                    unfold volGet
                    rw [hvk]
                    exact hget
                  simp only [hvg] at h
                  have heq : root1 = root := hg.2 blk root1 hget
                  rw [heq] at h
                  exact ihop root hwfu hbr hclip hbounds h
      | writeOp k v =>
          unfold runOps at h
          cases hvk : getCheckedNpKey vol k with
          | error e =>
              have hvg : volSet f vol root k v = .error e := by
                unfold volSet
                rw [hvk]
              simp only [hvg] at h
              cases h
              have := getCheckedNpKey_err vol k _ hvk
              cases this
          | ok kb =>
              have hkc : keyInClip kb root.boundsOf root.clipOf := by
                intro a
                obtain ⟨hl, hm, hr2⟩ := getCheckedNpKey_ok vol k kb hvk a
                have hb1 := (hbounds a).1
                have hb2 := (hbounds a).2
                refine ⟨le_trans hb1 hl, le_of_lt hm, le_trans hr2 hb2, ?_⟩
                intro cv hcv
                rw [hclip] at hcv
                cases hcv
                exact le_trans hr2 (le_refl _)
              have hs := wfu_set vol f root kb v hwfu hkc
              cases hset : nodeSet f vol root kb v with
              | error e =>
                  have hvg : volSet f vol root k v = .error e := by
                    unfold volSet
                    rw [hvk]
                    exact hset
                  simp only [hvg] at h
                  cases h
                  exact hs.1 hset
              | ok root1 =>
                  have hvg : volSet f vol root k v = .ok root1 := by
                    unfold volSet
                    rw [hvk]
                    exact hset
                  simp only [hvg] at h
                  have hwfu1 : WFU root1 := hs.2 root1 hset
                  have hshape := nodeSet_shape vol f root kb v root1 hset
                  have hkind := nodeSet_kind_clip vol f root kb v root1 hset
                  have hbr1 : root1.isBranchB = true ∨ root1.isUniformBranchB = true :=
                    hkind.1.mpr hbr
                  have hclip1 : root1.clipOf = some vol.bHi :=
                    (hkind.2 hbr1).trans hclip
                  have hbounds1 : ∀ a : Fin 3, root1.boundsOf.1 a ≤ vol.bLo a ∧
                      vol.bHi a ≤ root1.boundsOf.2 a := by
                    intro a
                    rw [hshape.2]
                    exact hbounds a
                  exact ihop root1 hwfu1 hbr1 hclip1 hbounds1 h

/-- C9 (witness): the populator-less main scenario volume with its root
made uniform by the full-extent write of 6 serves a further voxel
write, a read and another write without the missing-populator error. -/
theorem c9_no_populator_safety_witness :
    runOps 9 scenVol scenUni
      [.writeOp [.idx 8, .idx 5, .idx 4] (.scalar 5),
       .readOp [.slc 0 2 none, .slc 0 2 none, .slc 0 2 none],
       .writeOp [.idx 10, .idx 5, .idx 4] (.scalar 7)] ≠ .error .noPop :=
  c9_no_populator_safety_confirmed scenVol 9
    [.writeOp [.idx 8, .idx 5, .idx 4] (.scalar 5),
     .readOp [.slc 0 2 none, .slc 0 2 none, .slc 0 2 none],
     .writeOp [.idx 10, .idx 5, .idx 4] (.scalar 7)] scenUni
    rfl trivial (Or.inr rfl) rfl (by decide)

end Diluvian
